import Mathlib

/-!
Verification of the PDF layout and pagination engine of the
`article_downloader` browser extension (source file `popup.js`, plus the
outline helper in `libs/pdf.global.js`).

The JavaScript is shallowly embedded: pure functions become Lean
functions over `String`/`List`/`ℚ`, the mutable page cursor becomes
explicit state passing, and external primitives (jsPDF text measurement,
the canvas `measureText`, `String.prototype.normalize("NFKD")`,
`Intl.Segmenter`, URL resolution, image decoding) become oracle
parameters bundled in explicit structures, constrained only by the
standard guarantees those APIs provide.
-/

namespace ArticleDoc

/-! ## JavaScript primitive helpers

`jsRound` models `Math.round` (round half towards +∞), `jsFloor`
models `Math.floor`.  `isJsWs` models the JavaScript regex class `\s`
(ASCII whitespace, NBSP, BOM and the Unicode space separators). -/

def jsRound (q : ℚ) : ℤ := ⌊q + 1/2⌋

def jsFloor (q : ℚ) : ℤ := ⌊q⌋

def isJsWs (c : Char) : Bool :=
  c = ' ' || c = '\t' || c = '\n' || c = '\r' ||
  c.val = 0x0b || c.val = 0x0c || c.val = 0xa0 || c.val = 0xfeff ||
  c.val = 0x1680 || (0x2000 ≤ c.val && c.val ≤ 0x200a) ||
  c.val = 0x2028 || c.val = 0x2029 || c.val = 0x202f ||
  c.val = 0x205f || c.val = 0x3000

/-- `String.prototype.trim()`: strip leading and trailing `\s` characters. -/
def jsTrim (s : String) : String :=
  ⟨((s.data.dropWhile isJsWs).reverse.dropWhile isJsWs).reverse⟩

/-! ## Page/Pagination Controller (`popup.js`, `ensureSpace`)

State of the pagination controller inside `generatePDF`: the current
page number (`currentPageNumber`, pages are append-only so this is also
the page count, starting at 1) and the vertical cursor `y`. -/

structure PageState where
  pages : ℕ
  y : ℚ
  deriving Repr, DecidableEq

/-- `ensureSpace(h)` from `popup.js`:
if `y + h <= pageH - margin` there is enough space and nothing happens;
otherwise `pdf.addPage()` is called, `currentPageNumber++`, and
`y = margin`. -/
def ensureSpace (pageH margin : ℚ) (st : PageState) (h : ℚ) : PageState :=
  if st.y + h ≤ pageH - margin then st
  else { pages := st.pages + 1, y := margin }

/-- The initial render state of `generatePDF`: one page, cursor at the
top margin (`let y = margin`, `currentPageNumber = 1`). -/
def initPageState (margin : ℚ) : PageState := { pages := 1, y := margin }

/-- State after the first `i` calls of a sequence of `ensureSpace` calls. -/
def ensureSpaceRun (pageH margin : ℚ) (hs : List ℚ) (i : ℕ) : PageState :=
  (hs.take i).foldl (ensureSpace pageH margin) (initPageState margin)

theorem ensureSpace_y_lower (pageH margin : ℚ) (st : PageState) (h : ℚ)
    (hst : margin ≤ st.y) : margin ≤ (ensureSpace pageH margin st h).y := by
  unfold ensureSpace
  split <;> simp [hst]

theorem ensureSpaceRun_y_lower (pageH margin : ℚ) (hs : List ℚ) (i : ℕ) :
    margin ≤ (ensureSpaceRun pageH margin hs i).y := by
  unfold ensureSpaceRun
  generalize hs.take i = l
  induction l using List.reverseRecOn with
  | nil => simp [initPageState]
  | append_singleton l q ih =>
      rw [List.foldl_append, List.foldl_cons, List.foldl_nil]
      exact ensureSpace_y_lower _ _ _ _ ih

theorem ensureSpaceRun_succ (pageH margin : ℚ) (hs : List ℚ) (i : ℕ)
    (hi : i < hs.length) :
    ensureSpaceRun pageH margin hs (i + 1) =
      ensureSpace pageH margin (ensureSpaceRun pageH margin hs i) (hs.get ⟨i, hi⟩) := by
  unfold ensureSpaceRun
  rw [List.take_succ, List.foldl_append]
  have : hs[i]? = some (hs.get ⟨i, hi⟩) := by
    simp [List.getElem?_eq_getElem hi]
  rw [this]
  simp

/-- C1.  For the pagination controller started at the initial render
state, every `ensureSpace(h)` call with `h ≥ 0` either leaves the state
unchanged (exactly when `y + h ≤ pageH - margin`) or appends exactly one
page and resets the cursor to the top margin; consequently over any
sequence of calls the page count is non-decreasing and after every call
the cursor lies within `[margin, pageH - margin]`. -/
theorem c1_ensureSpace_pagination (pageH margin : ℚ) (hs : List ℚ)
    (hmargin : margin ≤ pageH - margin) (hnn : ∀ h ∈ hs, 0 ≤ h)
    (i : ℕ) (hi : i < hs.length) :
    (let cur := ensureSpaceRun pageH margin hs i
     let nxt := ensureSpaceRun pageH margin hs (i + 1)
     let h := hs.get ⟨i, hi⟩
     (cur.y + h ≤ pageH - margin → nxt = cur) ∧
     (¬ (cur.y + h ≤ pageH - margin) → nxt = { pages := cur.pages + 1, y := margin }) ∧
     cur.pages ≤ nxt.pages ∧
     margin ≤ nxt.y ∧ nxt.y ≤ pageH - margin) := by
  intro cur nxt h
  have hstep : nxt = ensureSpace pageH margin cur h := ensureSpaceRun_succ pageH margin hs i hi
  have hy : margin ≤ cur.y := ensureSpaceRun_y_lower pageH margin hs i
  have hh : 0 ≤ h := hnn _ (hs.get_mem _ _)
  by_cases hfit : cur.y + h ≤ pageH - margin
  · have hnx : nxt = cur := by rw [hstep]; unfold ensureSpace; simp [hfit]
    refine ⟨fun _ => hnx, fun hc => absurd hfit hc, ?_, ?_, ?_⟩
    · rw [hnx]
    · rw [hnx]; exact hy
    · rw [hnx]
      calc cur.y = cur.y + 0 := by ring
        _ ≤ cur.y + h := by linarith
        _ ≤ pageH - margin := hfit
  · have hnx : nxt = { pages := cur.pages + 1, y := margin } := by
      rw [hstep]; unfold ensureSpace; simp [hfit]
    refine ⟨fun hc => absurd hc hfit, fun _ => hnx, ?_, ?_, ?_⟩
    · rw [hnx]; exact Nat.le_succ _
    · rw [hnx]
    · rw [hnx]; exact hmargin

/-- Witness for C1 at A4 geometry (`pageH = 841.89`, `margin = 56`) and
the call sequence `[700, 400]`, instantiated at the second call: the
claimed step dichotomy, page-count monotonicity and cursor band hold
there. -/
theorem c1_ensureSpace_pagination_witness :
    (let cur := ensureSpaceRun 841.89 56 [700, 400] 1
     let nxt := ensureSpaceRun 841.89 56 [700, 400] 2
     let h := ([700, 400] : List ℚ).get ⟨1, by decide⟩
     (cur.y + h ≤ 841.89 - 56 → nxt = cur) ∧
     (¬ (cur.y + h ≤ 841.89 - 56) → nxt = { pages := cur.pages + 1, y := 56 }) ∧
     cur.pages ≤ nxt.pages ∧
     56 ≤ nxt.y ∧ nxt.y ≤ 841.89 - 56) :=
  c1_ensureSpace_pagination 841.89 56 [700, 400] (by norm_num)
    (by intro h hh; fin_cases hh <;> norm_num) 1 (by decide)

/-! ## Filename formatting (`popup.js`, `sanitizeTitleForFilename` / `buildFilename`) -/

/-- The separator class `[–—:\-|]` of the first `replace` in
`sanitizeTitleForFilename`. -/
def isTitleSep (c : Char) : Bool :=
  c.val = 0x2013 || c.val = 0x2014 || c = ':' || c = '-' || c = '|'

/-- `replace(/[–—:\-|]+.*/g, "")`: at the first separator character the
match consumes the separator run and (since `.` does not match `\n`)
everything up to the end of the line; scanning resumes at the newline.
The `Bool` tracks whether we are inside a match being discarded. -/
def dropAfterSepAux : Bool → List Char → List Char
  | _, [] => []
  | true, c :: cs =>
      if c = '\n' then c :: dropAfterSepAux false cs
      else dropAfterSepAux true cs
  | false, c :: cs =>
      if isTitleSep c then dropAfterSepAux true cs
      else c :: dropAfterSepAux false cs

def dropAfterSep (l : List Char) : List Char := dropAfterSepAux false l

/-- `replace(/\s+/g, "_")`: each whitespace run becomes one underscore.
The `Bool` tracks whether the previous character was whitespace. -/
def collapseWsAux : Bool → List Char → List Char
  | _, [] => []
  | inRun, c :: cs =>
      if isJsWs c then
        if inRun then collapseWsAux true cs else '_' :: collapseWsAux true cs
      else c :: collapseWsAux false cs

def collapseWsToUnderscore (l : List Char) : List Char := collapseWsAux false l

/-- The illegal-filename class `[\\/:*?"<>|]`. -/
def isIllegalFilenameChar (c : Char) : Bool :=
  c = '\\' || c = '/' || c = ':' || c = '*' || c = '?' || c = '"' || c = '<' || c = '>' || c = '|'

/-- `replace(/_+/g, "_")`: collapse underscore runs. -/
def collapseUnderscoresAux : Bool → List Char → List Char
  | _, [] => []
  | inRun, c :: cs =>
      if c = '_' then
        if inRun then collapseUnderscoresAux true cs
        else '_' :: collapseUnderscoresAux true cs
      else c :: collapseUnderscoresAux false cs

def collapseUnderscores (l : List Char) : List Char := collapseUnderscoresAux false l

/-- `replace(/^_+|_+$/g, "")`: strip the leading and trailing underscore runs. -/
def trimUnderscores (l : List Char) : List Char :=
  ((l.dropWhile (fun d => d = '_')).reverse.dropWhile (fun d => d = '_')).reverse

/-- `sanitizeTitleForFilename` from `popup.js`: trim, drop everything
after a dash/colon/pipe separator, whitespace runs to underscores,
remove illegal filename characters, collapse and trim underscores. -/
def sanitizeTitleForFilename (title : String) : String :=
  let base := collapseWsToUnderscore (dropAfterSep (jsTrim title).data)
  ⟨trimUnderscores (collapseUnderscores (base.filter (fun c => !isIllegalFilenameChar c)))⟩

/-- The `^\d{4}-\d{2}-\d{2}$` test on `publishedDate` (absent dates
stringify to `""` and never match). -/
def matchesYMD : Option String → Bool
  | none => false
  | some s =>
      match s.data with
      | [a, b, c, d, e, f, g, h, i, j] =>
          a.isDigit && b.isDigit && c.isDigit && d.isDigit && e = '-' &&
          f.isDigit && g.isDigit && h = '-' && i.isDigit && j.isDigit
      | _ => false

/-- The article fields `buildFilename` consumes. -/
structure FilenameArticle where
  title : String
  publishedDate : Option String

/-- `buildFilename` from `popup.js`. -/
def buildFilename (a : FilenameArticle) : String :=
  let safeTitle := sanitizeTitleForFilename a.title
  if matchesYMD a.publishedDate then
    (a.publishedDate.getD "") ++ "-" ++ safeTitle ++ ".pdf"
  else
    (if safeTitle = "" then "article" else safeTitle) ++ ".pdf"

/-- Counterexample to C7 as stated: sanitization does **not** empty the
title `"!!!"` — `'!'` is neither a separator, whitespace, nor an illegal
filename character — so `buildFilename({title:"!!!", publishedDate:null})`
returns `"!!!.pdf"`, not `"article.pdf"`. -/
theorem c7_buildFilename_counterexample :
    buildFilename { title := "!!!", publishedDate := none } = "!!!.pdf" ∧
    "!!!.pdf" ≠ "article.pdf" := by
  constructor
  · rfl
  · decide

/-- C7 (amended).  `buildFilename` returns
`${publishedDate}-${sanitizedTitle}.pdf` when the published date matches
`YYYY-MM-DD` and `${sanitizedTitle}.pdf` otherwise, defaulting (in the
dateless branch) to `"article.pdf"` when the title sanitizes to empty;
`buildFilename({title:"My Great Post — extra", publishedDate:"2025-01-02"})`
is `"2025-01-02-My_Great_Post.pdf"`, while
`buildFilename({title:"!!!", publishedDate:null})` is `"!!!.pdf"`
(sanitization does not remove `'!'`); a title that does sanitize to
empty, such as `"—"`, yields `"article.pdf"`. -/
theorem c7_buildFilename_amended :
    (∀ t d, matchesYMD (some d) = true →
        buildFilename { title := t, publishedDate := some d } =
          d ++ "-" ++ sanitizeTitleForFilename t ++ ".pdf") ∧
    (∀ t od, matchesYMD od = false →
        buildFilename { title := t, publishedDate := od } =
          (if sanitizeTitleForFilename t = "" then "article"
           else sanitizeTitleForFilename t) ++ ".pdf") ∧
    buildFilename { title := "My Great Post — extra", publishedDate := some "2025-01-02" } =
      "2025-01-02-My_Great_Post.pdf" ∧
    buildFilename { title := "!!!", publishedDate := none } = "!!!.pdf" ∧
    buildFilename { title := "—", publishedDate := none } = "article.pdf" := by
  refine ⟨?_, ?_, ?_, ?_, ?_⟩
  · intro t d hd
    unfold buildFilename
    simp [hd]
  · intro t od hod
    unfold buildFilename
    simp [hod]
  · rfl
  · rfl
  · rfl

/-- Witness for C7 (amended) at concrete inputs: both branch hypotheses
are discharged at `"2024-05-06"` and `none`. -/
theorem c7_buildFilename_amended_witness :
    (matchesYMD (some "2024-05-06") = true ∧
      buildFilename { title := "x", publishedDate := some "2024-05-06" } =
        "2024-05-06" ++ "-" ++ sanitizeTitleForFilename "x" ++ ".pdf") ∧
    (matchesYMD none = false ∧
      buildFilename { title := "x", publishedDate := none } =
        (if sanitizeTitleForFilename "x" = "" then "article"
         else sanitizeTitleForFilename "x") ++ ".pdf") :=
  ⟨⟨by decide, c7_buildFilename_amended.1 "x" "2024-05-06" (by decide)⟩,
   ⟨by decide, c7_buildFilename_amended.2.1 "x" none (by decide)⟩⟩

/-! ## Unicode normalizer (`popup.js`, `UNICODE_TO_ASCII_MAP` / `normalizeUnicodeForPDF`)

`String.prototype.normalize("NFKD")` is a host primitive, embedded as an
oracle `nfkd` constrained by the Unicode-standard guarantees used here
(characters of normalized output are normalization-inert, ASCII is
inert, and a string of inert non-mark characters is already normalized).
The environment without `normalize()` — the `catch` branch of the source
— corresponds to `nfkd = id`. -/

/-- Principal code-point ranges of the combining-mark classes
`\p{Mn}\p{Me}\p{Mc}` used by `normalizeUnicodeForPDF`'s strip step.
The proofs below depend only on ASCII lying outside every range. -/
def markRanges : List (ℕ × ℕ) :=
  [(0x0300, 0x036F), (0x0483, 0x0489), (0x0591, 0x05BD), (0x05BF, 0x05BF),
   (0x05C1, 0x05C2), (0x05C4, 0x05C5), (0x05C7, 0x05C7), (0x0610, 0x061A),
   (0x064B, 0x065F), (0x0670, 0x0670), (0x06D6, 0x06DC), (0x06DF, 0x06E4),
   (0x06E7, 0x06E8), (0x06EA, 0x06ED), (0x0711, 0x0711), (0x0730, 0x074A),
   (0x07A6, 0x07B0), (0x07EB, 0x07F3), (0x0816, 0x0819), (0x081B, 0x0823),
   (0x0825, 0x0827), (0x0829, 0x082D), (0x0859, 0x085B), (0x08D3, 0x0903),
   (0x093A, 0x093C), (0x093E, 0x094F), (0x0951, 0x0957), (0x0962, 0x0963),
   (0x0981, 0x0983), (0x09BC, 0x09BC), (0x09BE, 0x09C4), (0x09C7, 0x09C8),
   (0x09CB, 0x09CD), (0x09D7, 0x09D7), (0x09E2, 0x09E3), (0x0A01, 0x0A03),
   (0x0A3C, 0x0A3C), (0x0A3E, 0x0A42), (0x0E31, 0x0E31), (0x0E34, 0x0E3A),
   (0x0E47, 0x0E4E), (0x0F71, 0x0F84), (0x102B, 0x103E), (0x1056, 0x1059),
   (0x135D, 0x135F), (0x17B4, 0x17D3), (0x180B, 0x180D), (0x1920, 0x193B),
   (0x1AB0, 0x1AFF), (0x1B00, 0x1B04), (0x1B34, 0x1B44), (0x1DC0, 0x1DFF),
   (0x20D0, 0x20F0), (0x2CEF, 0x2CF1), (0x302A, 0x302F), (0x3099, 0x309A),
   (0xA66F, 0xA672), (0xA674, 0xA67D), (0xA823, 0xA827), (0xFB1E, 0xFB1E),
   (0xFE00, 0xFE0F), (0xFE20, 0xFE2F), (0x101FD, 0x101FD), (0x11000, 0x11002),
   (0x16F51, 0x16F87), (0x1D165, 0x1D169), (0x1D16D, 0x1D172), (0x1D17B, 0x1D182),
   (0x1DA00, 0x1DA36), (0xE0100, 0xE01EF)]

/-- `/[\p{Mn}\p{Me}\p{Mc}]/u` membership. -/
def isCombiningMark (c : Char) : Bool :=
  markRanges.any (fun r => decide (r.1 ≤ c.toNat) && decide (c.toNat ≤ r.2))

/-- A row `'𝗔': 'A', …, '𝗭': 'Z'` of `UNICODE_TO_ASCII_MAP`. -/
def upperRow (base : ℕ) : List (ℕ × String) :=
  (List.range 26).map (fun i => (base + i, String.singleton (Char.ofNat (65 + i))))

/-- A row `'𝐚': 'a', …, '𝐳': 'z'` of `UNICODE_TO_ASCII_MAP`. -/
def lowerRow (base : ℕ) : List (ℕ × String) :=
  (List.range 26).map (fun i => (base + i, String.singleton (Char.ofNat (97 + i))))

/-- `UNICODE_TO_ASCII_MAP` from `popup.js`, keyed by code point.  The
rows are the seven mathematical-alphanumeric blocks of the source
(sans-serif bold capitals 1D5D4, sans-serif italic capitals 1D608,
italic capitals 1D434, bold-italic small 1D482, bold small 1D41A, italic
small 1D44E with Planck `ℎ` 210E in the `h` slot, sans-serif bold-italic
small 1D656) followed by the punctuation entries; the source's
smart-quote entries are literally ASCII `"` and `'` mapped to
themselves. -/
def UNICODE_TO_ASCII : List (ℕ × String) :=
  upperRow 0x1D5D4 ++ upperRow 0x1D608 ++ upperRow 0x1D434 ++
  lowerRow 0x1D482 ++ lowerRow 0x1D41A ++
  (List.range 26).map
    (fun i => (if i = 7 then 0x210E else 0x1D44E + i, String.singleton (Char.ofNat (97 + i)))) ++
  lowerRow 0x1D656 ++
  [(0x2013, "-"), (0x2014, "-"), (0x2026, "..."), (0x22, "\""), (0x27, "'"),
   (0x201A, "'"), (0x201E, "\""), (0x2039, "<"), (0x203A, ">"),
   (0xAB, "<<"), (0xBB, ">>")]

/-- `UNICODE_TO_ASCII_MAP[char]` lookup. -/
def umapLookup (c : Char) : Option String :=
  (UNICODE_TO_ASCII.find? (fun p => p.1 == c.toNat)).map (fun p => p.2)

/-- The per-character body of `normalizeUnicodeForPDF`'s step 2:
mathematical-alphanumeric range and general-punctuation range consult
the table (falling back to the character itself), then explicit
overrides, then identity. -/
def substChar (c : Char) : String :=
  let code := c.toNat
  if 0x1D400 ≤ code ∧ code ≤ 0x1D7FF then (umapLookup c).getD (String.singleton c)
  else if 0x2010 ≤ code ∧ code ≤ 0x206F then (umapLookup c).getD (String.singleton c)
  else
    match umapLookup c with
    | some s => s
    | none => String.singleton c

/-- `Array.from(withoutCombining).map(char => …).join("")`. -/
def substAll (s : String) : String :=
  ⟨s.data.flatMap (fun c => (substChar c).data)⟩

/-- `decomposed.replace(/[\p{Mn}\p{Me}\p{Mc}]/gu, "")`. -/
def stripMarks (s : String) : String :=
  ⟨s.data.filter (fun c => !isCombiningMark c)⟩

/-- `normalizeUnicodeForPDF` from `popup.js`: the `!text` early return,
NFKD decomposition (oracle), combining-mark strip, then the
per-character substitution. -/
def normalizeUnicodeForPDF (nfkd : String → String) (text : String) : String :=
  if text = "" then text
  else substAll (stripMarks (nfkd text))

theorem char_eq_of_toNat_eq {a b : Char} (h : a.toNat = b.toNat) : a = b := by
  have hv : a.val = b.val := UInt32.toNat.inj h
  cases a; cases b; simp_all

set_option maxRecDepth 4000 in
theorem umap_values_ascii :
    ∀ p ∈ UNICODE_TO_ASCII, ∀ c ∈ p.2.data, c.toNat < 128 := by decide

set_option maxRecDepth 4000 in
theorem umap_small_keys :
    ∀ p ∈ UNICODE_TO_ASCII, p.1 < 128 →
      (p.1 = 0x22 ∧ p.2 = "\"") ∨ (p.1 = 0x27 ∧ p.2 = "'") := by decide

theorem markRanges_lb : ∀ r ∈ markRanges, 0x300 ≤ r.1 := by decide

theorem not_mark_of_ascii {c : Char} (h : c.toNat < 128) :
    isCombiningMark c = false := by
  unfold isCombiningMark
  rw [List.any_eq_false]
  intro r hr
  have := markRanges_lb r hr
  simp only [Bool.and_eq_true, decide_eq_true_eq]
  omega

theorem substChar_ascii {c : Char} (h : c.toNat < 128) :
    substChar c = String.singleton c := by
  have hr1 : ¬(0x1D400 ≤ c.toNat ∧ c.toNat ≤ 0x1D7FF) := by omega
  have hr2 : ¬(0x2010 ≤ c.toNat ∧ c.toNat ≤ 0x206F) := by omega
  unfold substChar
  simp only [hr1, hr2, if_false]
  cases hfind : UNICODE_TO_ASCII.find? (fun p => p.1 == c.toNat) with
  | none => simp [umapLookup, hfind]
  | some p =>
      have hmem := List.mem_of_find?_eq_some hfind
      have hkey : p.1 = c.toNat := by
        have := List.find?_some hfind
        simpa using this
      have hsmall : p.1 < 128 := by omega
      rcases umap_small_keys p hmem hsmall with ⟨hk, hv⟩ | ⟨hk, hv⟩
      · have hc : c = '"' := char_eq_of_toNat_eq (by rw [← hkey, hk]; decide)
        subst hc
        simp [umapLookup, hfind, hv]
        rfl
      · have hc : c = '\'' := char_eq_of_toNat_eq (by rw [← hkey, hk]; decide)
        subst hc
        simp [umapLookup, hfind, hv]
        rfl

/-- `substChar` either keeps the character or returns a table value. -/
theorem substChar_cases (c : Char) :
    substChar c = String.singleton c ∨
    ∃ p ∈ UNICODE_TO_ASCII, substChar c = p.2 := by
  unfold substChar
  cases hfind : UNICODE_TO_ASCII.find? (fun p => p.1 == c.toNat) with
  | none =>
      left
      simp [umapLookup, hfind]
  | some p =>
      right
      refine ⟨p, List.mem_of_find?_eq_some hfind, ?_⟩
      simp [umapLookup, hfind]

theorem substChar_idem {c d : Char} (hd : d ∈ (substChar c).data) :
    substChar d = String.singleton d := by
  rcases substChar_cases c with h | ⟨p, hp, h⟩
  · rw [h] at hd
    simp [String.singleton] at hd
    subst hd
    exact h
  · rw [h] at hd
    exact substChar_ascii (umap_values_ascii p hp d hd)

theorem substChar_not_mark {c d : Char} (hc : isCombiningMark c = false)
    (hd : d ∈ (substChar c).data) : isCombiningMark d = false := by
  rcases substChar_cases c with h | ⟨p, hp, h⟩
  · rw [h] at hd
    simp [String.singleton] at hd
    subst hd
    exact hc
  · rw [h] at hd
    exact not_mark_of_ascii (umap_values_ascii p hp d hd)

theorem substAll_fixed {v : String}
    (h : ∀ d ∈ v.data, substChar d = String.singleton d) : substAll v = v := by
  unfold substAll
  cases v with
  | mk data =>
      congr 1
      calc data.flatMap (fun c => (substChar c).data)
          = data.flatMap (fun c => [c]) := by
            apply List.flatMap_congr
            intro c hc
            rw [h c hc]
            rfl
        _ = data := by simp

/-- C4.  The Unicode normalizer `normalizeUnicodeForPDF` (NFKD
decomposition, combining-mark strip, lookup-table substitution) is
idempotent: `normalize (normalize x) = normalize x` for every string
`x`.  It is a pure function of its input (here a Lean function), with
the host `normalize("NFKD")` primitive abstracted as an oracle `nfkd`
satisfying the Unicode-standard guarantees: characters of NFKD output
are NFKD-inert, ASCII characters are NFKD-inert, and a string of inert
non-mark characters is NFKD-fixed.  (The identity oracle models the
source's `catch` branch for hosts without `String.prototype.normalize`.) -/
theorem c4_normalize_idempotent (nfkd : String → String)
    (Hchars : ∀ x : String, ∀ c ∈ (nfkd x).data,
      nfkd (String.singleton c) = String.singleton c)
    (Hascii : ∀ c : Char, c.toNat < 128 →
      nfkd (String.singleton c) = String.singleton c)
    (Hfixed : ∀ s : String,
      (∀ c ∈ s.data,
        nfkd (String.singleton c) = String.singleton c ∧ isCombiningMark c = false) →
      nfkd s = s)
    (x : String) :
    normalizeUnicodeForPDF nfkd (normalizeUnicodeForPDF nfkd x) =
      normalizeUnicodeForPDF nfkd x := by
  by_cases hx : x = ""
  · subst hx
    simp [normalizeUnicodeForPDF]
  · have hnx : normalizeUnicodeForPDF nfkd x = substAll (stripMarks (nfkd x)) := by
      simp [normalizeUnicodeForPDF, hx]
    set v := substAll (stripMarks (nfkd x)) with hv
    have key : ∀ d ∈ v.data,
        nfkd (String.singleton d) = String.singleton d ∧
        isCombiningMark d = false ∧
        substChar d = String.singleton d := by
      intro d hd
      have hd2 : d ∈ (stripMarks (nfkd x)).data.flatMap (fun c => (substChar c).data) := hd
      rcases List.mem_flatMap.mp hd2 with ⟨c, hc, hdc⟩
      have hc2 : c ∈ (nfkd x).data ∧ (!isCombiningMark c) = true := by
        have : c ∈ (nfkd x).data.filter (fun c => !isCombiningMark c) := hc
        exact List.mem_filter.mp this
      have hcmark : isCombiningMark c = false := by
        have := hc2.2
        simp at this
        exact this
      rcases substChar_cases c with hcase | ⟨p, hp, hcase⟩
      · rw [hcase] at hdc
        simp [String.singleton] at hdc
        subst hdc
        exact ⟨Hchars x d hc2.1, hcmark, hcase⟩
      · rw [hcase] at hdc
        have hascii := umap_values_ascii p hp d hdc
        exact ⟨Hascii d hascii, not_mark_of_ascii hascii, substChar_ascii hascii⟩
    rw [hnx]
    by_cases hve : v = ""
    · simp [normalizeUnicodeForPDF, hve]
    · have h1 : nfkd v = v := Hfixed v (fun c hc => ⟨(key c hc).1, (key c hc).2.1⟩)
      have h2 : stripMarks v = v := by
        unfold stripMarks
        cases hvv : v with
        | mk data =>
            congr 1
            rw [List.filter_eq_self]
            intro a ha
            have := (key a (by rw [hvv]; exact ha)).2.1
            simp [this]
      have h3 : substAll v = v := substAll_fixed (fun d hd => (key d hd).2.2)
      calc normalizeUnicodeForPDF nfkd v
          = substAll (stripMarks (nfkd v)) := by simp [normalizeUnicodeForPDF, hve]
        _ = v := by rw [h1, h2, h3]

/-- Witness for C4 with the identity NFKD oracle (the source's fallback
branch) on a concrete string containing a mathematical bold letter, an
en dash and a combining mark. -/
theorem c4_normalize_idempotent_witness :
    normalizeUnicodeForPDF id (normalizeUnicodeForPDF id "𝗛é–x") =
      normalizeUnicodeForPDF id "𝗛é–x" :=
  c4_normalize_idempotent id (fun _ _ _ => rfl) (fun _ _ => rfl)
    (fun _ _ => rfl) "𝗛é–x"

/-! ## Styled segments, fonts, and measurement oracles

`Segment` records (`text`, `bold`, `italic`, `mono`, `link`) drive the
layout engine.  Text measurement is performed by the host (jsPDF's
`getTextWidth` under the current font, and the auxiliary canvas's
`measureText`), embedded as oracle functions of (font, size, string);
grapheme segmentation (`Intl.Segmenter` or the code-point fallback) is
an oracle as well. -/

inductive FontFamily
  | courier
  | helvetica
  deriving DecidableEq, Repr

inductive FontStyle
  | normal
  | bold
  | italic
  | bolditalic
  deriving DecidableEq, Repr

structure FontSpec where
  family : FontFamily
  style : FontStyle
  deriving DecidableEq, Repr

structure Seg where
  text : String := ""
  bold : Bool := false
  italic : Bool := false
  mono : Bool := false
  link : Option String := none
  deriving DecidableEq, Repr

/-- `styleFromSeg` from `popup.js`. -/
def styleFromSeg (seg : Seg) : FontSpec :=
  if seg.mono then ⟨.courier, .normal⟩
  else if seg.bold && seg.italic then ⟨.helvetica, .bolditalic⟩
  else if seg.bold then ⟨.helvetica, .bold⟩
  else if seg.italic then ⟨.helvetica, .italic⟩
  else ⟨.helvetica, .normal⟩

structure MeasureEnv where
  nfkd : String → String
  graphemes : String → List String
  getTextWidth : FontSpec → ℚ → String → ℚ
  canvasMeasure : FontSpec → ℚ → String → ℚ

/-- JavaScript `x || fallback` on numbers (`0` is falsy; the embedding
has no `NaN`). -/
def jsOr (x fallback : ℚ) : ℚ := if x = 0 then fallback else x

/-- `measure(text)` under `withSegFont(seg, size)`: normalize, then
`pdf.getTextWidth`. -/
def measureSeg (env : MeasureEnv) (seg : Seg) (size : ℚ) (text : String) : ℚ :=
  env.getTextWidth (styleFromSeg seg) size (normalizeUnicodeForPDF env.nfkd text)

/-- `getPxToPtFactor`: ratio of the page-canvas width of `"M"` to its
raster width (each falling back to 1 when zero). -/
def getPxToPtFactor (env : MeasureEnv) (seg : Seg) (size : ℚ) : ℚ :=
  let px := jsOr (env.canvasMeasure (styleFromSeg seg) size "M") 1
  let pt := jsOr (env.getTextWidth (styleFromSeg seg) size "M") 1
  pt / px

/-- `measureEmojiWidthPt`: raster width (falling back to `size`) times
the conversion factor times the 8% safety margin. -/
def measureEmojiWidthPt (env : MeasureEnv) (g : String) (seg : Seg) (size : ℚ) : ℚ :=
  let px := jsOr (env.canvasMeasure (styleFromSeg seg) size g) size
  px * getPxToPtFactor env seg size * (108 / 100)

/-- Principal `Extended_Pictographic` ranges for the emoji test; the
theorems below do not depend on the exact extension of this class. -/
def pictographicRanges : List (ℕ × ℕ) :=
  [(0x2139, 0x2139), (0x2194, 0x21AA), (0x231A, 0x231B), (0x2328, 0x2328),
   (0x23CF, 0x23FA), (0x24C2, 0x24C2), (0x25AA, 0x25FE), (0x2600, 0x27BF),
   (0x2934, 0x2935), (0x2B00, 0x2BFF), (0x3030, 0x3030), (0x303D, 0x303D),
   (0x3297, 0x3299), (0x1F000, 0x1FAFF), (0x1FC00, 0x1FFFD)]

/-- `isEmojiGrapheme` from `popup.js`: empty is not emoji; ZWJ or
VS16 anywhere, or any pictographic code point. -/
def isEmojiGrapheme (gr : String) : Bool :=
  if gr = "" then false
  else
    gr.data.any (fun c => c.toNat = 0x200D) ||
    gr.data.any (fun c => c.toNat = 0xFE0F) ||
    gr.data.any (fun c =>
      pictographicRanges.any (fun r => decide (r.1 ≤ c.toNat) && decide (c.toNat ≤ r.2)))

/-- The code-point fallback of `segmentGraphemes` (`Array.from(text)`). -/
def segmentGraphemesFallback (text : String) : List String :=
  text.data.map String.singleton

inductive FragKind
  | text
  | emoji
  deriving DecidableEq, Repr

/-- One `{ type, text, width }` fragment of `splitTokenIntoFragments`. -/
structure Frag where
  kind : FragKind
  text : String
  width : ℚ
  deriving DecidableEq, Repr

/-- The grapheme walk of `splitTokenIntoFragments`: `cur` is the
accumulated run of non-emoji graphemes, flushed (with the 2% measuring
margin) before each emoji fragment and at the end. -/
def fragWalk (env : MeasureEnv) (seg : Seg) (size : ℚ) : List String → String → List Frag
  | [], cur =>
      if cur = "" then []
      else [⟨.text, cur, measureSeg env seg size cur * (102 / 100)⟩]
  | g :: gs, cur =>
      if isEmojiGrapheme g then
        (if cur = "" then []
         else [⟨.text, cur, measureSeg env seg size cur * (102 / 100)⟩]) ++
        ⟨.emoji, g, measureEmojiWidthPt env g seg size⟩ :: fragWalk env seg size gs ""
      else fragWalk env seg size gs (cur ++ g)

/-- `splitTokenIntoFragments` from `popup.js`: normalize the token,
segment into graphemes, walk. -/
def splitTokenIntoFragments (env : MeasureEnv) (tok : String) (seg : Seg) (size : ℚ) :
    List Frag :=
  fragWalk env seg size (env.graphemes (normalizeUnicodeForPDF env.nfkd tok)) ""

/-- Concatenation of a list of strings (`join("")`). -/
def concatStrs (l : List String) : String := l.foldr (· ++ ·) ""

theorem concatStrs_nil : concatStrs [] = "" := rfl

theorem concatStrs_cons (s : String) (l : List String) :
    concatStrs (s :: l) = s ++ concatStrs l := rfl

theorem fragWalk_concat (env : MeasureEnv) (seg : Seg) (size : ℚ)
    (gs : List String) (cur : String) :
    concatStrs ((fragWalk env seg size gs cur).map (fun f => f.text)) =
      cur ++ concatStrs gs := by
  induction gs generalizing cur with
  | nil =>
      by_cases hcur : cur = "" <;>
        simp [fragWalk, hcur, concatStrs_cons, concatStrs_nil]
  | cons g gs ih =>
      by_cases hg : isEmojiGrapheme g
      · by_cases hcur : cur = ""
        · simp [fragWalk, hg, hcur, concatStrs_cons, ih, String.append_assoc]
        · simp [fragWalk, hg, hcur, concatStrs_cons, ih, String.append_assoc]
      · simp [fragWalk, hg, concatStrs_cons, ih, String.append_assoc]

/-- C5.  For every token, style and size, concatenating the `text` of
all fragments of `splitTokenIntoFragments` reconstructs the normalized
token — the grapheme walk partitions the normalized token without
losing, duplicating or reordering graphemes — provided the grapheme
segmenter oracle satisfies the partition property (`Intl.Segmenter`
guarantees it; the code-point fallback provably has it). -/
theorem c5_fragments_reconstruct (env : MeasureEnv) (tok : String) (seg : Seg) (size : ℚ)
    (hseg : ∀ s : String, concatStrs (env.graphemes s) = s) :
    concatStrs ((splitTokenIntoFragments env tok seg size).map (fun f => f.text)) =
      normalizeUnicodeForPDF env.nfkd tok := by
  unfold splitTokenIntoFragments
  rw [fragWalk_concat, hseg]
  simp

theorem segmentGraphemesFallback_concat (s : String) :
    concatStrs (segmentGraphemesFallback s) = s := by
  unfold segmentGraphemesFallback concatStrs
  cases s with
  | mk data =>
      induction data with
      | nil => rfl
      | cons c cs ih =>
          simp only [List.map_cons, List.foldr_cons]
          rw [show ({ data := c :: cs } : String) = String.singleton c ++ ⟨cs⟩ by rfl]
          rw [ih]

/-- Witness for C5: the fallback segmenter (which provably satisfies the
partition hypothesis) on a concrete emoji-bearing token. -/
theorem c5_fragments_reconstruct_witness :
    concatStrs ((splitTokenIntoFragments
      { nfkd := id, graphemes := segmentGraphemesFallback,
        getTextWidth := fun _ _ _ => 1, canvasMeasure := fun _ _ _ => 1 }
      "hi👍ok" {} 11).map (fun f => f.text)) =
      normalizeUnicodeForPDF id "hi👍ok" :=
  c5_fragments_reconstruct _ "hi👍ok" {} 11
    (fun s => segmentGraphemesFallback_concat s)

/-! ## Line-breaking engine (`popup.js`, `layoutSegmentsIntoLines`) -/

/-- JavaScript `/^\s+$/` membership. -/
def isAllWs (s : String) : Bool := !s.data.isEmpty && s.data.all isJsWs

/-- `chunk.match(/\S+\s*|\s+/g)` tokenization state: an open token is
either a pure-whitespace run, a word still in its `\S+` phase, or a word
in its trailing `\s*` phase. -/
structure TokBuf where
  isPure : Bool
  sawWs : Bool
  rev : List Char

def tokenizeAux : List Char → Option TokBuf → List (List Char)
  | [], none => []
  | [], some b => [b.rev.reverse]
  | c :: cs, none =>
      if isJsWs c then tokenizeAux cs (some ⟨true, true, [c]⟩)
      else tokenizeAux cs (some ⟨false, false, [c]⟩)
  | c :: cs, some b =>
      if isJsWs c then tokenizeAux cs (some ⟨b.isPure, true, c :: b.rev⟩)
      else
        if b.isPure || b.sawWs then
          b.rev.reverse :: tokenizeAux cs (some ⟨false, false, [c]⟩)
        else tokenizeAux cs (some ⟨false, false, c :: b.rev⟩)

/-- `chunk.match(/\S+\s*|\s+/g) || []`: greedy left-to-right split into
word-plus-trailing-whitespace and pure-whitespace tokens. -/
def tokenizeChunk (cs : List Char) : List (List Char) := tokenizeAux cs none

/-- `\p{L}|\p{N}` membership, modelled on the ASCII range — identical
there to the source's fallback regex `[A-Za-z0-9]`. -/
def isWordChar (c : Char) : Bool := c.isAlpha || c.isDigit

/-- The regex `^(?:\p{L}|\p{N})\s?$` of `combineSingleCharRuns`. -/
def isSingleCharTok : List Char → Bool
  | [c] => isWordChar c
  | [c, s] => isWordChar c && isJsWs s
  | _ => false

def isPureWsTok (t : List Char) : Bool := !t.isEmpty && t.all isJsWs

def trimTok (t : List Char) : List Char :=
  ((t.dropWhile isJsWs).reverse.dropWhile isJsWs).reverse

def endsWithWsTok (t : List Char) : Bool :=
  match t.getLast? with
  | some c => isJsWs c
  | none => false

/-- `combineSingleCharRuns` from `popup.js`: consecutive single
letter/digit tokens accumulate into `buffer` (trimmed), flushed with one
trailing space if any of them ended in whitespace; pure-whitespace
tokens are never merged into the buffer. -/
def combineAux : List (List Char) → List Char → Bool → List (List Char)
  | [], buffer, ts =>
      if buffer.isEmpty then [] else [buffer ++ (if ts then [' '] else [])]
  | tok :: rest, buffer, ts =>
      if isPureWsTok tok then
        (if buffer.isEmpty then [] else [buffer ++ (if ts then [' '] else [])]) ++
        tok :: combineAux rest [] false
      else if isSingleCharTok tok then
        combineAux rest (buffer ++ trimTok tok) (ts || endsWithWsTok tok)
      else
        (if buffer.isEmpty then [] else [buffer ++ (if ts then [' '] else [])]) ++
        tok :: combineAux rest [] false

def combineSingleCharRuns (tokens : List (List Char)) : List (List Char) :=
  combineAux tokens [] false

/-- `current.push({ ...seg, text: tok, width: w, fragments })`: the line
part carries the segment's style/link flags with the token as its text. -/
structure LinePart where
  seg : Seg
  width : ℚ
  fragments : List Frag
  deriving DecidableEq, Repr

structure LayoutSt where
  lines : List (List LinePart)
  current : List LinePart
  lineWidth : ℚ
  deriving DecidableEq, Repr

/-- `pushLine` from `layoutSegmentsIntoLines`. -/
def pushLine (st : LayoutSt) : LayoutSt :=
  { lines := if st.current.isEmpty then st.lines else st.lines ++ [st.current],
    current := [],
    lineWidth := 0 }

/-- The per-token body of the layout loop. -/
def placeToken (env : MeasureEnv) (maxWidth size : ℚ) (seg : Seg)
    (st : LayoutSt) (tok : String) : LayoutSt :=
  if st.current.isEmpty && isAllWs tok then st
  else
    let fragments := splitTokenIntoFragments env tok seg size
    let w := fragments.foldl (fun acc f => acc + f.width) 0
    if maxWidth < st.lineWidth + w && !st.current.isEmpty then
      let st2 := pushLine st
      if isAllWs tok then st2
      else { st2 with
               current := st2.current ++ [⟨{ seg with text := tok }, w, fragments⟩],
               lineWidth := st2.lineWidth + w }
    else
      { st with
          current := st.current ++ [⟨{ seg with text := tok }, w, fragments⟩],
          lineWidth := st.lineWidth + w }

/-- `text.split(/(\n)/)`: pieces between newlines, with each `"\n"`
kept as its own entry (empty pieces included). -/
def splitKeepNLAux : List Char → List Char → List String
  | [], cur => [⟨cur.reverse⟩]
  | c :: cs, cur =>
      if c = '\n' then ⟨cur.reverse⟩ :: "\n" :: splitKeepNLAux cs []
      else splitKeepNLAux cs (c :: cur)

def jsSplitKeepNL (s : String) : List String := splitKeepNLAux s.data []

/-- The per-chunk body of the layout loop: a `"\n"` chunk forces a line
break, an empty chunk is skipped, any other chunk is tokenized,
single-char-coalesced and placed token by token. -/
def placeChunk (env : MeasureEnv) (maxWidth size : ℚ) (seg : Seg)
    (st : LayoutSt) (chunk : String) : LayoutSt :=
  if chunk = "\n" then pushLine st
  else if chunk = "" then st
  else
    (combineSingleCharRuns (tokenizeChunk chunk.data)).foldl
      (fun st t => placeToken env maxWidth size seg st ⟨t⟩) st

/-- The per-segment body: normalize the text, split on newlines,
process each chunk. -/
def placeSeg (env : MeasureEnv) (maxWidth size : ℚ) (st : LayoutSt) (seg : Seg) :
    LayoutSt :=
  (jsSplitKeepNL (normalizeUnicodeForPDF env.nfkd seg.text)).foldl
    (placeChunk env maxWidth size seg) st

/-- `layoutSegmentsIntoLines` from `popup.js`. -/
def layoutSegmentsIntoLines (env : MeasureEnv) (segments : List Seg)
    (maxWidth size : ℚ) : List (List LinePart) :=
  (pushLine (segments.foldl (placeSeg env maxWidth size) ⟨[], [], 0⟩)).lines

/-- Sum of the widths of a line's parts. -/
def lineWidthSum (line : List LinePart) : ℚ :=
  (line.map (fun p => p.width)).sum

/-- The token stream the layout loop feeds to `placeToken` for a given
segment list: every non-newline, non-empty chunk's coalesced tokens. -/
def tokensOfSegs (env : MeasureEnv) (segments : List Seg) : List String :=
  segments.flatMap (fun seg =>
    (jsSplitKeepNL (normalizeUnicodeForPDF env.nfkd seg.text)).flatMap
      (fun chunk =>
        if chunk = "\n" then []
        else if chunk = "" then []
        else (combineSingleCharRuns (tokenizeChunk chunk.data)).map
          (fun t => (⟨t⟩ : String))))

/-- Invariant of the layout loop: finished lines obey the width bound
(or are singletons) with all their parts drawn from the token stream
`toks`; `lineWidth` tracks the open line's width sum; an open line with
at least two parts obeys the bound; open parts come from `toks`. -/
structure InvSt (toks : List String) (maxWidth : ℚ) (st : LayoutSt) : Prop where
  lines_ok : ∀ line ∈ st.lines,
    (lineWidthSum line ≤ maxWidth ∨ ∃ p, line = [p]) ∧
    ∀ p ∈ line, p.seg.text ∈ toks
  width_eq : st.lineWidth = lineWidthSum st.current
  cur_ok : 2 ≤ st.current.length → lineWidthSum st.current ≤ maxWidth
  cur_mem : ∀ p ∈ st.current, p.seg.text ∈ toks

theorem lineWidthSum_nil : lineWidthSum [] = 0 := rfl

theorem lineWidthSum_append (a b : List LinePart) :
    lineWidthSum (a ++ b) = lineWidthSum a + lineWidthSum b := by
  simp [lineWidthSum]

theorem pushLine_inv {toks : List String} {maxW : ℚ} {st : LayoutSt}
    (h : InvSt toks maxW st) : InvSt toks maxW (pushLine st) := by
  obtain ⟨hl, hw, hok, hcur⟩ := h
  refine ⟨?_, by simp [pushLine, lineWidthSum_nil], ?_, by simp [pushLine]⟩
  · intro line hline
    unfold pushLine at hline
    simp only at hline
    by_cases hce : st.current.isEmpty
    · rw [if_pos hce] at hline
      exact hl line hline
    · rw [if_neg hce] at hline
      rcases List.mem_append.mp hline with hmem | hmem
      · exact hl line hmem
      · have hline2 : line = st.current := by simpa using hmem
        subst hline2
        refine ⟨?_, hcur⟩
        rcases Nat.lt_or_ge st.current.length 2 with hlen | hlen
        · right
          have hne : st.current ≠ [] := by
            intro hc
            rw [hc] at hce
            exact hce rfl
          have h1 : st.current.length = 1 := by
            have : 0 < st.current.length := List.length_pos.mpr hne
            omega
          exact List.length_eq_one.mp h1
        · left
          exact hok hlen
  · intro h2
    simp [pushLine] at h2

theorem placeToken_inv (env : MeasureEnv) {toks : List String} {maxW : ℚ}
    (size : ℚ) (seg : Seg) {st : LayoutSt} {tok : String}
    (htok : tok ∈ toks) (h : InvSt toks maxW st) :
    InvSt toks maxW (placeToken env maxW size seg st tok) := by
  unfold placeToken
  by_cases h1 : st.current.isEmpty && isAllWs tok
  · rw [if_pos h1]
    exact h
  · rw [if_neg h1]
    obtain ⟨hl, hw, hok, hcur⟩ := h
    set fragments := splitTokenIntoFragments env tok seg size with hfrag
    set w := fragments.foldl (fun acc f => acc + f.width) 0 with hwdef
    by_cases h2 : (decide (maxW < st.lineWidth + w) && !st.current.isEmpty) = true
    · rw [if_pos h2]
      have hpush := pushLine_inv ⟨hl, hw, hok, hcur⟩
      by_cases h3 : isAllWs tok
      · rw [if_pos h3]
        exact hpush
      · rw [if_neg h3]
        obtain ⟨hl2, hw2, hok2, hcur2⟩ := hpush
        have hcur0 : (pushLine st).current = [] := rfl
        have hlw0 : (pushLine st).lineWidth = 0 := rfl
        refine ⟨hl2, ?_, ?_, ?_⟩
        · simp [hcur0, hlw0, lineWidthSum_append, lineWidthSum_nil, lineWidthSum]
        · intro hlen
          rw [hcur0] at hlen
          simp at hlen
        · intro p hp
          rw [hcur0] at hp
          simp at hp
          subst hp
          exact htok
    · rw [if_neg h2]
      have hsplit : st.lineWidth + w ≤ maxW ∨ st.current = [] := by
        rcases Bool.and_eq_false_iff.mp (Bool.not_eq_true _ |>.mp h2) with hc | hc
        · left
          have := of_decide_eq_false hc
          exact le_of_not_lt this
        · right
          have : st.current.isEmpty = true := by
            cases hce : st.current.isEmpty
            · rw [hce] at hc
              simp at hc
            · rfl
          exact List.isEmpty_iff.mp this
      refine ⟨hl, ?_, ?_, ?_⟩
      · simp [lineWidthSum_append, lineWidthSum, hw]
      · intro hlen
        rcases hsplit with hfit | hemp
        · rw [lineWidthSum_append]
          simp only [lineWidthSum]
          simp only [List.map_cons, List.map_nil, List.sum_cons, List.sum_nil, add_zero]
          rw [hw] at hfit
          simpa [lineWidthSum] using hfit
        · rw [hemp] at hlen
          simp at hlen
      · intro p hp
        rcases List.mem_append.mp hp with hmem | hmem
        · exact hcur p hmem
        · have : p = ⟨{ seg with text := tok }, w, fragments⟩ := by simpa using hmem
          subst this
          exact htok

theorem foldTokens_inv (env : MeasureEnv) {toks : List String} {maxW : ℚ}
    (size : ℚ) (seg : Seg) (tl : List (List Char)) :
    ∀ st : LayoutSt, (∀ t ∈ tl, (⟨t⟩ : String) ∈ toks) → InvSt toks maxW st →
    InvSt toks maxW
      (tl.foldl (fun st t => placeToken env maxW size seg st ⟨t⟩) st) := by
  induction tl with
  | nil => intro st _ h; exact h
  | cons t ts ih =>
      intro st hmem h
      rw [List.foldl_cons]
      exact ih _ (fun u hu => hmem u (List.mem_cons_of_mem _ hu))
        (placeToken_inv env size seg (hmem t (List.mem_cons_self _ _)) h)

theorem placeChunk_inv (env : MeasureEnv) {toks : List String} {maxW : ℚ}
    (size : ℚ) (seg : Seg) (chunk : String) (st : LayoutSt)
    (hmem : chunk ≠ "\n" → chunk ≠ "" →
      ∀ t ∈ combineSingleCharRuns (tokenizeChunk chunk.data), (⟨t⟩ : String) ∈ toks)
    (h : InvSt toks maxW st) :
    InvSt toks maxW (placeChunk env maxW size seg st chunk) := by
  unfold placeChunk
  by_cases h1 : chunk = "\n"
  · rw [if_pos h1]
    exact pushLine_inv h
  · rw [if_neg h1]
    by_cases h2 : chunk = ""
    · rw [if_pos h2]
      exact h
    · rw [if_neg h2]
      exact foldTokens_inv env size seg _ st (hmem h1 h2) h

theorem placeSeg_inv (env : MeasureEnv) {toks : List String} {maxW : ℚ}
    (size : ℚ) (seg : Seg) (st : LayoutSt)
    (hmem : ∀ chunk ∈ jsSplitKeepNL (normalizeUnicodeForPDF env.nfkd seg.text),
      chunk ≠ "\n" → chunk ≠ "" →
      ∀ t ∈ combineSingleCharRuns (tokenizeChunk chunk.data), (⟨t⟩ : String) ∈ toks)
    (h : InvSt toks maxW st) :
    InvSt toks maxW (placeSeg env maxW size st seg) := by
  unfold placeSeg
  generalize hl : jsSplitKeepNL (normalizeUnicodeForPDF env.nfkd seg.text) = chunks
  rw [hl] at hmem
  clear hl
  induction chunks generalizing st with
  | nil => exact h
  | cons c cs ih =>
      rw [List.foldl_cons]
      exact ih _ (placeChunk_inv env size seg c st (hmem c (List.mem_cons_self _ _)) h)
        (fun u hu => hmem u (List.mem_cons_of_mem _ hu))

theorem tokensOfSegs_mem (env : MeasureEnv) (segments : List Seg) (seg : Seg)
    (hseg : seg ∈ segments) (chunk : String)
    (hchunk : chunk ∈ jsSplitKeepNL (normalizeUnicodeForPDF env.nfkd seg.text))
    (hn1 : chunk ≠ "\n") (hn2 : chunk ≠ "")
    (t : List Char) (ht : t ∈ combineSingleCharRuns (tokenizeChunk chunk.data)) :
    (⟨t⟩ : String) ∈ tokensOfSegs env segments := by
  unfold tokensOfSegs
  rw [List.mem_flatMap]
  refine ⟨seg, hseg, ?_⟩
  rw [List.mem_flatMap]
  refine ⟨chunk, hchunk, ?_⟩
  rw [if_neg hn1, if_neg hn2]
  exact List.mem_map_of_mem _ ht

/-- C2.  For every segment list, `maxWidth > 0` and size, each line
produced by `layoutSegmentsIntoLines` has parts whose widths sum to at
most `maxWidth`, except when the line is a single token whose own width
exceeds `maxWidth`; and no token is ever split across lines: every
line part's text is an element of the token stream obtained from the
segments by the newline-split / tokenize / single-char-coalesce
pipeline. -/
theorem c2_layout_line_bound (env : MeasureEnv) (segments : List Seg)
    (maxWidth size : ℚ) (hpos : 0 < maxWidth) :
    ∀ line ∈ layoutSegmentsIntoLines env segments maxWidth size,
      (lineWidthSum line ≤ maxWidth ∨
        ∃ p, line = [p] ∧ maxWidth < p.width) ∧
      ∀ p ∈ line, p.seg.text ∈ tokensOfSegs env segments := by
  have hInit : InvSt (tokensOfSegs env segments) maxWidth ⟨[], [], 0⟩ := by
    refine ⟨?_, ?_, ?_, ?_⟩
    · intro line hline
      simp at hline
    · simp [lineWidthSum_nil]
    · intro h2
      simp at h2
    · intro p hp
      simp at hp
  have hFold : ∀ (segs : List Seg) (st : LayoutSt), (∀ s ∈ segs, s ∈ segments) →
      InvSt (tokensOfSegs env segments) maxWidth st →
      InvSt (tokensOfSegs env segments) maxWidth
        (segs.foldl (placeSeg env maxWidth size) st) := by
    intro segs
    induction segs with
    | nil => intro st _ h; exact h
    | cons s ss ih =>
        intro st hsub h
        rw [List.foldl_cons]
        refine ih _ (fun u hu => hsub u (List.mem_cons_of_mem _ hu)) ?_
        refine placeSeg_inv env size s st ?_ h
        intro chunk hchunk hn1 hn2 t ht
        exact tokensOfSegs_mem env segments s (hsub s (List.mem_cons_self _ _))
          chunk hchunk hn1 hn2 t ht
  have hFin := pushLine_inv (hFold segments ⟨[], [], 0⟩ (fun _ hs => hs) hInit)
  intro line hline
  have hmem := hFin.lines_ok line hline
  refine ⟨?_, hmem.2⟩
  rcases hmem.1 with hle | ⟨p, hp⟩
  · left
    exact hle
  · by_cases hple : lineWidthSum line ≤ maxWidth
    · left
      exact hple
    · right
      refine ⟨p, hp, ?_⟩
      rw [hp] at hple
      have : lineWidthSum [p] = p.width := by simp [lineWidthSum]
      rw [this] at hple
      exact lt_of_not_le hple

/-- Witness for C2: a concrete environment (identity NFKD, code-point
segmenter, constant-width oracles) with `maxWidth = 3 > 0`. -/
theorem c2_layout_line_bound_witness :
    (0 : ℚ) < 3 ∧
    (∀ line ∈ layoutSegmentsIntoLines
        { nfkd := id, graphemes := segmentGraphemesFallback,
          getTextWidth := fun _ _ _ => 1, canvasMeasure := fun _ _ _ => 1 }
        [{ text := "ab cd" }] 3 11,
      (lineWidthSum line ≤ 3 ∨ ∃ p, line = [p] ∧ 3 < p.width) ∧
      ∀ p ∈ line, p.seg.text ∈ tokensOfSegs
        { nfkd := id, graphemes := segmentGraphemesFallback,
          getTextWidth := fun _ _ _ => 1, canvasMeasure := fun _ _ _ => 1 }
        [{ text := "ab cd" }]) :=
  ⟨by norm_num,
   c2_layout_line_bound _ [{ text := "ab cd" }] 3 11 (by norm_num)⟩

/-! ## Outline/bookmark builder (`popup.js` `createPDFOutline`;
`libs/pdf.global.js` `createOutline` uses the same stack algorithm)

The JavaScript builds the tree by mutation: each arriving heading pops
the stack while the top's level is `>=` its own, then is pushed into the
(new) top's `children` (or into the roots) and onto the stack; children
arrays grow in place afterwards.  The functional rendering below closes
a frame when it is popped, threading the single closed node down as
`pending`; the resulting forest is identical, children and roots
appearing in arrival order.  Each node carries the destination
`destinationY = pageHeight - heading.y`. -/

structure OHeading where
  text : String
  level : ℤ
  page : ℕ
  y : ℚ
  deriving DecidableEq, Repr

inductive ONode where
  | node (h : OHeading) (destY : ℚ) (children : List ONode)
  deriving Repr

def ONode.headingOf : ONode → OHeading
  | .node h _ _ => h

mutual

/-- Preorder (document-order) flattening of a node. -/
def preT : ONode → List OHeading
  | .node h _ cs => h :: preF cs

def preF : List ONode → List OHeading
  | [] => []
  | t :: ts => preT t ++ preF ts

end

mutual

/-- The outline nesting invariant: every child's level is strictly
greater than its parent's, recursively. -/
def nodeOk : ONode → Bool
  | .node h _ cs => cs.all (fun c => decide (h.level < c.headingOf.level)) && forestOk cs

def forestOk : List ONode → Bool
  | [] => true
  | t :: ts => nodeOk t && forestOk ts

end

/-- An open outline item on the stack: its heading and the children
closed so far (most recent first). -/
structure BFrame where
  h : OHeading
  childrenRev : List ONode
  deriving Repr

/-- Closing a stack item produces its outline node (children restored
to arrival order, destination converted to bottom-origin). -/
def closeFrame (pageH : ℚ) (f : BFrame) : ONode :=
  .node f.h (pageH - f.h.y) f.childrenRev.reverse

/-- `while (itemStack.length > 0 && top.level >= heading.level) pop()`:
pop stack items whose level is `≥ lvl`, threading each popped item's
closed node down as `pending` (it becomes the last child of the next
item, or a new root when the stack empties). -/
def popGEAux (pageH : ℚ) (lvl : ℤ) :
    List BFrame → Option ONode → List ONode → List BFrame × List ONode
  | [], pending, roots => ([], roots ++ pending.toList)
  | f :: fs, pending, roots =>
      if lvl ≤ f.h.level then
        popGEAux pageH lvl fs
          (some (closeFrame pageH ⟨f.h, pending.toList ++ f.childrenRev⟩)) roots
      else (⟨f.h, pending.toList ++ f.childrenRev⟩ :: fs, roots)

/-- Close every remaining open item (end of the heading loop). -/
def closeAllAux (pageH : ℚ) :
    List BFrame → Option ONode → List ONode → List ONode
  | [], pending, roots => roots ++ pending.toList
  | f :: fs, pending, roots =>
      closeAllAux pageH fs
        (some (closeFrame pageH ⟨f.h, pending.toList ++ f.childrenRev⟩)) roots

/-- One iteration of the heading loop of `createPDFOutline`: pop
deeper-or-equal items, then push the arriving heading with no children
yet. -/
def stepH (pageH : ℚ) (st : List BFrame × List ONode) (h : OHeading) :
    List BFrame × List ONode :=
  let p := popGEAux pageH h.level st.1 none st.2
  (⟨h, []⟩ :: p.1, p.2)

/-- The root list `pdf.outline.root.children` after processing all
headings in render order. -/
def buildOutlineForest (pageH : ℚ) (hs : List OHeading) : List ONode :=
  let st := hs.foldl (stepH pageH) ([], [])
  closeAllAux pageH st.1 none st.2

/-- Document-order contents of one open frame. -/
def flatFrame (f : BFrame) : List OHeading := f.h :: preF f.childrenRev.reverse

/-- Document-order contents of the open spine (stack is top-first; the
bottom frame's heading comes first, upper frames nest at the end). -/
def flatSpine : List BFrame → List OHeading
  | [] => []
  | f :: fs => flatSpine fs ++ flatFrame f

def pendFlat : Option ONode → List OHeading
  | none => []
  | some n => preT n

/-- Everything emitted so far, in document order. -/
def flatState (st : List BFrame × List ONode) : List OHeading :=
  preF st.2 ++ flatSpine st.1

theorem preF_append (a b : List ONode) : preF (a ++ b) = preF a ++ preF b := by
  induction a with
  | nil => simp [preF]
  | cons t ts ih => simp [preF, ih]

theorem flatFrame_pending (f : BFrame) (pending : Option ONode) :
    flatFrame ⟨f.h, pending.toList ++ f.childrenRev⟩ =
      flatFrame f ++ pendFlat pending := by
  cases pending with
  | none => simp [flatFrame, pendFlat]
  | some n =>
      simp only [flatFrame, pendFlat, Option.toList]
      rw [List.reverse_append, preF_append]
      simp [preF]

theorem preT_closeFrame (pageH : ℚ) (f : BFrame) :
    preT (closeFrame pageH f) = flatFrame f := rfl

theorem popGEAux_flat (pageH : ℚ) (lvl : ℤ) (stack : List BFrame) :
    ∀ (pending : Option ONode) (roots : List ONode),
    preF (popGEAux pageH lvl stack pending roots).2 ++
        flatSpine (popGEAux pageH lvl stack pending roots).1 =
      preF roots ++ flatSpine stack ++ pendFlat pending := by
  induction stack with
  | nil =>
      intro pending roots
      cases pending with
      | none => simp [popGEAux, flatSpine, preF_append, preF, pendFlat]
      | some n => simp [popGEAux, flatSpine, preF_append, preF, pendFlat]
  | cons f fs ih =>
      intro pending roots
      by_cases hlvl : lvl ≤ f.h.level
      · rw [show popGEAux pageH lvl (f :: fs) pending roots =
            popGEAux pageH lvl fs
              (some (closeFrame pageH ⟨f.h, pending.toList ++ f.childrenRev⟩)) roots
            from by rw [popGEAux, if_pos hlvl]]
        rw [ih]
        simp only [pendFlat, preT_closeFrame, flatFrame_pending, flatSpine]
        simp [List.append_assoc]
      · rw [show popGEAux pageH lvl (f :: fs) pending roots =
            (⟨f.h, pending.toList ++ f.childrenRev⟩ :: fs, roots)
            from by rw [popGEAux, if_neg hlvl]]
        simp only [flatSpine, flatFrame_pending]
        simp [List.append_assoc]

theorem closeAllAux_flat (pageH : ℚ) (stack : List BFrame) :
    ∀ (pending : Option ONode) (roots : List ONode),
    preF (closeAllAux pageH stack pending roots) =
      preF roots ++ flatSpine stack ++ pendFlat pending := by
  induction stack with
  | nil =>
      intro pending roots
      cases pending with
      | none => simp [closeAllAux, flatSpine, preF_append, preF, pendFlat]
      | some n => simp [closeAllAux, flatSpine, preF_append, preF, pendFlat]
  | cons f fs ih =>
      intro pending roots
      rw [closeAllAux, ih]
      simp only [pendFlat, preT_closeFrame, flatFrame_pending, flatSpine]
      simp [List.append_assoc]

theorem stepH_flat (pageH : ℚ) (st : List BFrame × List ONode) (h : OHeading) :
    flatState (stepH pageH st h) = flatState st ++ [h] := by
  unfold stepH flatState
  simp only [flatSpine]
  rw [← List.append_assoc, popGEAux_flat]
  simp [flatFrame, preF, pendFlat, List.append_assoc]

theorem fold_flat (pageH : ℚ) (hs : List OHeading) :
    ∀ st : List BFrame × List ONode,
    flatState (hs.foldl (stepH pageH) st) = flatState st ++ hs := by
  induction hs with
  | nil => intro st; simp
  | cons h t ih =>
      intro st
      rw [List.foldl_cons, ih, stepH_flat]
      simp

/-- The nesting data carried for each open frame: every closed child is
strictly deeper than the frame and internally well-nested. -/
def frameOk (f : BFrame) : Prop :=
  ∀ c ∈ f.childrenRev, f.h.level < c.headingOf.level ∧ nodeOk c = true

/-- Constraint on the threaded `pending` node: well-nested, and strictly
deeper than the frame it will be attached to. -/
def pendOk : List BFrame → Option ONode → Prop
  | _, none => True
  | [], some n => nodeOk n = true
  | f :: _, some n => nodeOk n = true ∧ f.h.level < n.headingOf.level

theorem pendOk_none (s : List BFrame) : pendOk s none := by
  cases s <;> trivial

theorem forestOk_iff (l : List ONode) :
    forestOk l = true ↔ ∀ t ∈ l, nodeOk t = true := by
  induction l with
  | nil => simp [forestOk]
  | cons t ts ih =>
      rw [forestOk]
      simp [ih]

theorem nodeOk_mk (h : OHeading) (destY : ℚ) (cs : List ONode)
    (hcs : ∀ c ∈ cs, h.level < c.headingOf.level ∧ nodeOk c = true) :
    nodeOk (.node h destY cs) = true := by
  rw [nodeOk]
  rw [Bool.and_eq_true]
  constructor
  · rw [List.all_eq_true]
    intro c hc
    exact decide_eq_true (hcs c hc).1
  · rw [forestOk_iff]
    intro c hc
    exact (hcs c hc).2

theorem closeFrame_ok (pageH : ℚ) {f : BFrame} (hf : frameOk f) :
    nodeOk (closeFrame pageH f) = true := by
  unfold closeFrame
  apply nodeOk_mk
  intro c hc
  exact hf c (List.mem_reverse.mp hc)

/-- The stack's levels strictly decrease from top to bottom. -/
def stackDesc (stack : List BFrame) : Prop :=
  List.Chain' (fun a b => b.h.level < a.h.level) stack

theorem popGEAux_inv (pageH : ℚ) (lvl : ℤ) (stack : List BFrame) :
    ∀ (pending : Option ONode) (roots : List ONode),
    stackDesc stack → (∀ f ∈ stack, frameOk f) →
    (∀ t ∈ roots, nodeOk t = true) → pendOk stack pending →
    (let r := popGEAux pageH lvl stack pending roots
     stackDesc r.1 ∧ (∀ f ∈ r.1, frameOk f) ∧ (∀ t ∈ r.2, nodeOk t = true) ∧
     (∀ g ∈ r.1.head?, g.h.level < lvl)) := by
  induction stack with
  | nil =>
      intro pending roots _ _ hroots hpend
      cases pending with
      | none =>
          refine ⟨List.chain'_nil, by simp [popGEAux], ?_, by simp [popGEAux]⟩
          intro t ht
          simp [popGEAux] at ht
          exact hroots t ht
      | some n =>
          refine ⟨List.chain'_nil, by simp [popGEAux], ?_, by simp [popGEAux]⟩
          intro t ht
          simp [popGEAux] at ht
          rcases ht with ht | ht
          · exact hroots t ht
          · subst ht
            exact hpend
  | cons f fs ih =>
      intro pending roots hdesc hframes hroots hpend
      have hfok : frameOk (⟨f.h, pending.toList ++ f.childrenRev⟩ : BFrame) := by
        intro c hc
        rcases List.mem_append.mp hc with hc | hc
        · cases pending with
          | none => simp at hc
          | some n =>
              have : c = n := by simpa using hc
              subst this
              exact ⟨hpend.2, hpend.1⟩
        · exact hframes f (List.mem_cons_self _ _) c hc
      by_cases hlvl : lvl ≤ f.h.level
      · rw [show popGEAux pageH lvl (f :: fs) pending roots =
            popGEAux pageH lvl fs
              (some (closeFrame pageH ⟨f.h, pending.toList ++ f.childrenRev⟩)) roots
            from by rw [popGEAux, if_pos hlvl]]
        refine ih _ roots hdesc.tail
          (fun g hg => hframes g (List.mem_cons_of_mem _ hg)) hroots ?_
        have hnode := closeFrame_ok pageH hfok
        cases fs with
        | nil => exact hnode
        | cons g gs =>
            refine ⟨hnode, ?_⟩
            have := List.chain'_cons.mp hdesc
            exact this.1
      · rw [show popGEAux pageH lvl (f :: fs) pending roots =
            (⟨f.h, pending.toList ++ f.childrenRev⟩ :: fs, roots)
            from by rw [popGEAux, if_neg hlvl]]
        refine ⟨?_, ?_, hroots, ?_⟩
        · rw [stackDesc, List.chain'_cons']
          refine ⟨?_, hdesc.tail⟩
          intro g hg
          rcases List.chain'_cons'.mp hdesc with ⟨hhead, _⟩
          exact hhead g hg
        · intro g hg
          rcases List.mem_cons.mp hg with hg | hg
          · subst hg
            exact hfok
          · exact hframes g (List.mem_cons_of_mem _ hg)
        · intro g hg
          simp at hg
          subst hg
          exact lt_of_not_le hlvl

theorem closeAllAux_inv (pageH : ℚ) (stack : List BFrame) :
    ∀ (pending : Option ONode) (roots : List ONode),
    stackDesc stack → (∀ f ∈ stack, frameOk f) →
    (∀ t ∈ roots, nodeOk t = true) → pendOk stack pending →
    ∀ t ∈ closeAllAux pageH stack pending roots, nodeOk t = true := by
  induction stack with
  | nil =>
      intro pending roots _ _ hroots hpend t ht
      cases pending with
      | none =>
          simp [closeAllAux] at ht
          exact hroots t ht
      | some n =>
          simp [closeAllAux] at ht
          rcases ht with ht | ht
          · exact hroots t ht
          · subst ht
            exact hpend
  | cons f fs ih =>
      intro pending roots hdesc hframes hroots hpend
      have hfok : frameOk (⟨f.h, pending.toList ++ f.childrenRev⟩ : BFrame) := by
        intro c hc
        rcases List.mem_append.mp hc with hc | hc
        · cases pending with
          | none => simp at hc
          | some n =>
              have : c = n := by simpa using hc
              subst this
              exact ⟨hpend.2, hpend.1⟩
        · exact hframes f (List.mem_cons_self _ _) c hc
      rw [closeAllAux]
      refine ih _ roots hdesc.tail
        (fun g hg => hframes g (List.mem_cons_of_mem _ hg)) hroots ?_
      have hnode := closeFrame_ok pageH hfok
      cases fs with
      | nil => exact hnode
      | cons g gs =>
          refine ⟨hnode, ?_⟩
          exact (List.chain'_cons.mp hdesc).1

/-- Invariant of the heading fold: descending stack, well-nested open
children, well-nested emitted roots. -/
def StInv (st : List BFrame × List ONode) : Prop :=
  stackDesc st.1 ∧ (∀ f ∈ st.1, frameOk f) ∧ (∀ t ∈ st.2, nodeOk t = true)

theorem stepH_inv (pageH : ℚ) (st : List BFrame × List ONode) (h : OHeading)
    (hst : StInv st) : StInv (stepH pageH st h) := by
  obtain ⟨hdesc, hframes, hroots⟩ := hst
  have hp := popGEAux_inv pageH h.level st.1 none st.2 hdesc hframes hroots (pendOk_none _)
  obtain ⟨hdesc2, hframes2, hroots2, hhead⟩ := hp
  refine ⟨?_, ?_, hroots2⟩
  · rw [stepH, stackDesc, List.chain'_cons']
    exact ⟨fun g hg => hhead g hg, hdesc2⟩
  · intro g hg
    rcases List.mem_cons.mp hg with hg | hg
    · subst hg
      intro c hc
      simp at hc
    · exact hframes2 g hg

theorem fold_inv (pageH : ℚ) (hs : List OHeading) :
    ∀ st : List BFrame × List ONode, StInv st →
    StInv (hs.foldl (stepH pageH) st) := by
  induction hs with
  | nil => intro st h; exact h
  | cons h t ih =>
      intro st hst
      rw [List.foldl_cons]
      exact ih _ (stepH_inv pageH st h hst)

theorem popGEAux_all_pop (pageH : ℚ) (lvl : ℤ) (stack : List BFrame) :
    ∀ (pending : Option ONode) (roots : List ONode),
    (∀ f ∈ stack, lvl ≤ f.h.level) →
    popGEAux pageH lvl stack pending roots =
      ([], closeAllAux pageH stack pending roots) := by
  induction stack with
  | nil => intro pending roots _; rfl
  | cons f fs ih =>
      intro pending roots hall
      rw [popGEAux, if_pos (hall f (List.mem_cons_self _ _)), closeAllAux]
      exact ih _ roots (fun g hg => hall g (List.mem_cons_of_mem _ hg))

/-- C3.  For every list of `OutlineHeading` records processed in render
order by the stack-based outline builder: (i) every non-root node's
level is strictly greater than its parent's level, recursively; (ii)
the preorder flattening of the resulting forest is exactly the original
heading list, so the children of each node — and the roots — appear in
original render order with nothing lost or duplicated; (iii) a heading
whose level is `≤` the level of every currently open heading becomes a
new root appended after the already-built forest, which is left
untouched (no retroactive reparenting). -/
theorem c3_outline_invariants (pageH : ℚ) (hs : List OHeading) :
    (∀ t ∈ buildOutlineForest pageH hs, nodeOk t = true) ∧
    preF (buildOutlineForest pageH hs) = hs ∧
    (∀ h : OHeading,
      (∀ f ∈ (hs.foldl (stepH pageH) ([], [])).1, h.level ≤ f.h.level) →
      buildOutlineForest pageH (hs ++ [h]) =
        buildOutlineForest pageH hs ++ [ONode.node h (pageH - h.y) []]) := by
  have hInv : StInv (hs.foldl (stepH pageH) ([], [])) :=
    fold_inv pageH hs ([], []) ⟨List.chain'_nil, by simp, by simp⟩
  obtain ⟨hdesc, hframes, hroots⟩ := hInv
  refine ⟨?_, ?_, ?_⟩
  · unfold buildOutlineForest
    exact closeAllAux_inv pageH _ none _ hdesc hframes hroots (pendOk_none _)
  · unfold buildOutlineForest
    rw [closeAllAux_flat]
    have := fold_flat pageH hs ([], [])
    simpa [flatState, flatSpine, preF, pendFlat] using this
  · intro h hall
    unfold buildOutlineForest
    rw [List.foldl_append, List.foldl_cons, List.foldl_nil]
    rw [show stepH pageH (hs.foldl (stepH pageH) ([], [])) h =
        (⟨h, []⟩ :: ([] : List BFrame),
          closeAllAux pageH (hs.foldl (stepH pageH) ([], [])).1 none
            (hs.foldl (stepH pageH) ([], [])).2)
        from by rw [stepH, popGEAux_all_pop pageH h.level _ none _ hall]]
    rw [closeAllAux, closeAllAux]
    rfl

/-- Witness for C3 part (iii) at Scenario 2's headings: after `A`
(level 2) and `B` (level 3), the incoming `C` (level 2) satisfies the
open-heading hypothesis and becomes a new root after the untouched
existing forest. -/
theorem c3_outline_invariants_witness :
    (∀ f ∈ (([⟨"A", 2, 1, 700⟩, ⟨"B", 3, 1, 650⟩] : List OHeading).foldl
        (stepH 841.89) ([], [])).1, (⟨"C", 2, 2, 100⟩ : OHeading).level ≤ f.h.level) ∧
    buildOutlineForest 841.89
        ([⟨"A", 2, 1, 700⟩, ⟨"B", 3, 1, 650⟩] ++ [⟨"C", 2, 2, 100⟩]) =
      buildOutlineForest 841.89 [⟨"A", 2, 1, 700⟩, ⟨"B", 3, 1, 650⟩] ++
        [ONode.node ⟨"C", 2, 2, 100⟩ (841.89 - 100) []] :=
  ⟨by decide,
   (c3_outline_invariants 841.89 [⟨"A", 2, 1, 700⟩, ⟨"B", 3, 1, 650⟩]).2.2
     ⟨"C", 2, 2, 100⟩ (by decide)⟩

/-! ## Code-block per-line font sizing (`popup.js`, `drawCodeBlock`)

`drawCodeBlock` sets the courier font at the 10pt base size once before
its measurement loop.  Each iteration measures the line's widest
non-whitespace token with `pdf.getTextWidth`, which measures under the
*currently active* font size; it then calls `pdf.setFontSize(size)` with
the size chosen for the line (the base 10pt when no shrink is needed)
and never resets to the base before the next iteration.  The active
measurement size is therefore threaded across lines: 10pt for the first
line, and for each later line the size chosen for its predecessor.
jsPDF's `getTextWidth` scales linearly with the active font size, so
the measurement oracle is a per-point width `unitW`; the width of `t`
under active size `m` is `unitW t * m`. -/

/-- Maximal non-whitespace runs of a line: `line.split(/(\s+)/)` with
the loop's `if (!t || /^\s+$/.test(t)) continue` filter. -/
def nonWsRunsAux : List Char → List Char → List (List Char)
  | [], cur => if cur.isEmpty then [] else [cur.reverse]
  | c :: cs, cur =>
      if isJsWs c then
        (if cur.isEmpty then [] else [cur.reverse]) ++ nonWsRunsAux cs []
      else nonWsRunsAux cs (c :: cur)

def nonWsRuns (line : String) : List (List Char) := nonWsRunsAux line.data []

/-- `longest`: the widest non-whitespace token of the line, measured by
`pdf.getTextWidth` under the active font size `m`. -/
def codeMeasuredLongest (unitW : String → ℚ) (m : ℚ) (line : String) : ℚ :=
  (nonWsRuns line).foldl
    (fun longest t =>
      let w := unitW ⟨t⟩ * m
      if longest < w then w else longest) 0

/-- The size `drawCodeBlock` chooses for one line given the active
measurement size `m`:
`longest > textW → size = Math.max(7, Math.floor(10 * (textW / longest)))`
(the formula always uses the 10pt base), else the base size 10. -/
def codeLineSizeAt (unitW : String → ℚ) (textW m : ℚ) (line : String) : ℚ :=
  let longest := codeMeasuredLongest unitW m line
  if textW < longest then
    max 7 ((jsFloor (10 * (textW / longest)) : ℤ) : ℚ)
  else 10

/-- The measurement loop over the logical lines: the chosen size is
recorded for each line and — via the trailing `pdf.setFontSize(size)` —
stays active for measuring the next line. -/
def codeLineSizesAux (unitW : String → ℚ) (textW : ℚ) :
    List String → ℚ → List ℚ
  | [], _ => []
  | line :: rest, m =>
      let s := codeLineSizeAt unitW textW m line
      s :: codeLineSizesAux unitW textW rest s

/-- The per-line font sizes of a whole code block
(`pdf.setFontSize(baseSize)` runs once before the loop, so the first
line is measured at the 10pt base). -/
def codeLineSizes (unitW : String → ℚ) (textW : ℚ) (lines : List String) : List ℚ :=
  codeLineSizesAux unitW textW lines 10

/-- Counterexample to C6 as stated, on the A4 column width 483.28 with a
two-line block whose tokens measure 72/pt and 60/pt (720 and 600 at the
10pt base — both wider than the column at base size).  Line 1 gets
`max(7, ⌊10·483.28/720⌋) = 7`, yet its token still measures
`72·7 = 504 > 483.28` (the 7pt clamp defeats "the token fits").  The
trailing `setFontSize(7)` then leaks into line 2's measurement: its
token measures `60·7 = 420 ≤ 483.28`, no shrink is triggered, and the
line keeps the 10pt base although its token exceeds the column at base
size (600 > 483.28) — defeating "strictly smaller than the base size"
as well. -/
theorem c6_code_shrink_counterexample :
    codeLineSizes (fun t => if t = "y" then 60 else 72) 483.28 ["x", "y"] = [7, 10] ∧
    (483.28 : ℚ) < 72 * 10 ∧
    ¬ ((72 : ℚ) * 7 ≤ 483.28) ∧
    (483.28 : ℚ) < 60 * 10 := by
  have hux : (fun t => if t = "y" then (60 : ℚ) else 72) (⟨['x']⟩ : String) = 72 := by
    simp only []
    rw [if_neg (by decide)]
  have huy : (fun t => if t = "y" then (60 : ℚ) else 72) (⟨['y']⟩ : String) = 60 := by
    simp only []
    rw [if_pos (by decide)]
  have hL1 : codeMeasuredLongest (fun t => if t = "y" then 60 else 72) 10 "x" = 720 := by
    rw [codeMeasuredLongest, show nonWsRuns "x" = [['x']] from by decide]
    simp only [List.foldl_cons, List.foldl_nil, hux]
    norm_num
  have hL2 : codeMeasuredLongest (fun t => if t = "y" then 60 else 72) 7 "y" = 420 := by
    rw [codeMeasuredLongest, show nonWsRuns "y" = [['y']] from by decide]
    simp only [List.foldl_cons, List.foldl_nil, huy]
    norm_num
  have hfloor : jsFloor (10 * ((483.28 : ℚ) / 720)) = 6 := by
    rw [jsFloor]
    apply Int.floor_eq_iff.mpr
    norm_num
  have hs1 : codeLineSizeAt (fun t => if t = "y" then 60 else 72) 483.28 10 "x" = 7 := by
    simp only [codeLineSizeAt, hL1]
    rw [if_pos (by norm_num : (483.28 : ℚ) < 720), hfloor]
    norm_num
  have hs2 : codeLineSizeAt (fun t => if t = "y" then 60 else 72) 483.28 7 "y" = 10 := by
    simp only [codeLineSizeAt, hL2]
    rw [if_neg (by norm_num : ¬((483.28 : ℚ) < 420))]
  refine ⟨?_, by norm_num, by norm_num, by norm_num⟩
  rw [codeLineSizes, codeLineSizesAux, hs1, codeLineSizesAux, hs2, codeLineSizesAux]

theorem codeLineSizeAt_over_bounds (unitW : String → ℚ) (textW m : ℚ) (line : String)
    (hpos : 0 < textW)
    (hover : textW < codeMeasuredLongest unitW m line) :
    codeLineSizeAt unitW textW m line < 10 ∧
    7 ≤ codeLineSizeAt unitW textW m line ∧
    ((7 : ℤ) ≤ jsFloor (10 * (textW / codeMeasuredLongest unitW m line)) →
      codeMeasuredLongest unitW m line * codeLineSizeAt unitW textW m line / 10 ≤ textW) := by
  set longest := codeMeasuredLongest unitW m line with hlg
  have hlpos : 0 < longest := lt_trans hpos hover
  have hq : 10 * (textW / longest) < 10 := by
    have hlt : textW / longest < 1 := (div_lt_one hlpos).mpr hover
    linarith
  have hqpos : 0 < 10 * (textW / longest) := by
    have : 0 < textW / longest := div_pos hpos hlpos
    linarith
  have hfloor_le : ((jsFloor (10 * (textW / longest)) : ℤ) : ℚ) ≤ 10 * (textW / longest) :=
    Int.floor_le _
  have hfloor_lt : ((jsFloor (10 * (textW / longest)) : ℤ) : ℚ) < 10 :=
    lt_of_le_of_lt hfloor_le hq
  have hsize : codeLineSizeAt unitW textW m line =
      max 7 ((jsFloor (10 * (textW / longest)) : ℤ) : ℚ) := by
    rw [codeLineSizeAt, ← hlg, if_pos hover]
  refine ⟨?_, ?_, ?_⟩
  · rw [hsize]
    exact max_lt (by norm_num) hfloor_lt
  · rw [hsize]
    exact le_max_left _ _
  · intro hclamp
    have hcast : (7 : ℚ) ≤ ((jsFloor (10 * (textW / longest)) : ℤ) : ℚ) := by
      exact_mod_cast hclamp
    rw [hsize, max_eq_right hcast]
    rw [div_le_iff₀ (by norm_num : (0 : ℚ) < 10)]
    calc longest * ((jsFloor (10 * (textW / longest)) : ℤ) : ℚ)
        ≤ longest * (10 * (textW / longest)) := by
          exact mul_le_mul_of_nonneg_left hfloor_le (le_of_lt hlpos)
      _ = textW * 10 := by
          field_simp
          ring

/-- C6 (amended).  `drawCodeBlock` measures each line's widest
non-whitespace token under the font size still active from the previous
line (the 10pt base before the first line; the size chosen for a line
stays active for measuring the next).  (i) For every line whose widest
token, at its measurement size, exceeds the text column width, the
chosen size `max(7, ⌊10·textW/measured⌋)` is strictly smaller than the
10pt base and at least the 7pt minimum.  (ii) The first line of a block
is measured at the 10pt base, each later line at its predecessor's
chosen size.  (iii) For a line measured at the 10pt base, when the
proportional size is not clamped at 7pt the widest token fits within
the column at the chosen size.  A line following a shrunk line may keep
the 10pt base although its token exceeds the column at base size, and
under the 7pt clamp the token may still overflow — see the
counterexample. -/
theorem c6_code_shrink_amended (unitW : String → ℚ) (textW : ℚ) (hpos : 0 < textW) :
    (∀ (m : ℚ) (line : String),
      textW < codeMeasuredLongest unitW m line →
      codeLineSizeAt unitW textW m line < 10 ∧
      7 ≤ codeLineSizeAt unitW textW m line) ∧
    (∀ (line : String) (rest : List String),
      codeLineSizes unitW textW (line :: rest) =
        codeLineSizeAt unitW textW 10 line ::
          codeLineSizesAux unitW textW rest (codeLineSizeAt unitW textW 10 line)) ∧
    (∀ line : String,
      textW < codeMeasuredLongest unitW 10 line →
      (7 : ℤ) ≤ jsFloor (10 * (textW / codeMeasuredLongest unitW 10 line)) →
      codeMeasuredLongest unitW 10 line * codeLineSizeAt unitW textW 10 line / 10 ≤ textW) := by
  refine ⟨?_, ?_, ?_⟩
  · intro m line hover
    have h := codeLineSizeAt_over_bounds unitW textW m line hpos hover
    exact ⟨h.1, h.2.1⟩
  · intro line rest
    rw [codeLineSizes, codeLineSizesAux]
  · intro line hover hclamp
    exact (codeLineSizeAt_over_bounds unitW textW 10 line hpos hover).2.2 hclamp

/-- Witness for C6 (amended): token width 1/pt against a column of
width 8, measured at the 10pt base; the proportional size 8 is above
the minimum, is chosen, and the token fits (10·8/10 = 8 ≤ 8). -/
theorem c6_code_shrink_amended_witness :
    (0 : ℚ) < 8 ∧
    (8 : ℚ) < codeMeasuredLongest (fun _ => 1) 10 "x" ∧
    (7 : ℤ) ≤ jsFloor (10 * ((8 : ℚ) / codeMeasuredLongest (fun _ => 1) 10 "x")) ∧
    codeLineSizeAt (fun _ => 1) 8 10 "x" < 10 ∧
    7 ≤ codeLineSizeAt (fun _ => 1) 8 10 "x" ∧
    codeLineSizes (fun _ => 1) 8 ["x"] = [codeLineSizeAt (fun _ => 1) 8 10 "x"] ∧
    codeMeasuredLongest (fun _ => 1) 10 "x" * codeLineSizeAt (fun _ => 1) 8 10 "x" / 10 ≤ 8 := by
  have hlong : codeMeasuredLongest (fun _ => 1) 10 "x" = 10 := by
    rw [codeMeasuredLongest, show nonWsRuns "x" = [['x']] from by decide]
    simp only [List.foldl_cons, List.foldl_nil]
    norm_num
  have hfloor : jsFloor (10 * ((8 : ℚ) / 10)) = 8 := by
    rw [jsFloor]
    apply Int.floor_eq_iff.mpr
    norm_num
  have h := c6_code_shrink_amended (fun _ => 1) 8 (by norm_num)
  have hover : (8 : ℚ) < codeMeasuredLongest (fun _ => 1) 10 "x" := by
    rw [hlong]
    norm_num
  refine ⟨by norm_num, hover, ?_, (h.1 10 "x" hover).1, (h.1 10 "x" hover).2,
    h.2.1 "x" [], ?_⟩
  · rw [hlong, hfloor]
    norm_num
  · exact h.2.2 "x" hover (by rw [hlong, hfloor]; norm_num)

/-! ## Image rendering failure handling (`popup.js`, `drawImage`)

`drawImage` awaits `convertImageToDataURL` and `img.decode()` inside a
`try` whose `catch` is empty; both fallible operations precede any state
mutation (`ensureSpace`, `pdf.addImage`, the cursor advance).  The
fetch/decode outcome is embedded as an `Option` of the decoded pixel
dimensions. -/

structure ImgDims where
  w : ℚ
  h : ℚ
  deriving DecidableEq, Repr

/-- `drawImage` from `popup.js`: on decode failure the `catch` swallows
the error and nothing happens; on success the image is scaled to the
column (never upscaled), space is ensured for it, and the cursor
advances past it. -/
def drawImage (pageH margin textW : ℚ) (decoded : Option ImgDims) (st : PageState) :
    PageState :=
  match decoded with
  | none => st
  | some d =>
      let maxImgW := textW
      let scale := if maxImgW < d.w then maxImgW / d.w else 1
      let imgW := min maxImgW (d.w * scale)
      let imgH := d.h * (imgW / d.w)
      let st2 := ensureSpace pageH margin st (imgH + 6)
      { st2 with y := st2.y + imgH + 10 }

/-- C9.  If fetching or decoding an image fails, `drawImage` is a no-op
on the render state: no page is added, the cursor is unchanged, nothing
is drawn for that image, and — the function being total — rendering of
subsequent content continues; the error never propagates. -/
theorem c9_drawImage_failure_noop (pageH margin textW : ℚ) (st : PageState) :
    drawImage pageH margin textW none st = st := rfl

/-! ## Heading rendering and outline records (`popup.js`, `drawHeading`)

`drawHeading` pushes the `OutlineHeading` record (page number and
cursor) *before* laying out and drawing; each wrapped line then calls
`ensureSpace(lh)` before being drawn at the current cursor. -/

/-- `level === 2 ? SIZES.h2 : level === 3 ? SIZES.h3 : SIZES.h4`. -/
def headingSize (level : ℤ) : ℚ :=
  if level = 2 then 16 else if level = 3 then 14 else 12.5

/-- The per-line drawing loop of `drawHeading`: `ensureSpace(lh)`, draw
the line's parts at the (possibly reset) cursor, advance by `lh`.  The
returned list records the (page, baseline-y) at which each line is
drawn. -/
def drawLinesFold (pageH margin lh : ℚ) :
    List (List LinePart) → List (ℕ × ℚ) → PageState → List (ℕ × ℚ) × PageState
  | [], acc, st => (acc, st)
  | _ :: rest, acc, st =>
      let st2 := ensureSpace pageH margin st lh
      drawLinesFold pageH margin lh rest (acc ++ [(st2.pages, st2.y)])
        { st2 with y := st2.y + lh }

/-- `drawHeading` from `popup.js`: push the outline record (pre-draw
page number and cursor), lay the text out, draw each line under
`ensureSpace`, then add the 4pt gap. -/
def drawHeading (env : MeasureEnv) (pageH margin textW : ℚ) (st : PageState)
    (text : String) (level : ℤ) : OHeading × List (ℕ × ℚ) × PageState :=
  let size := headingSize level
  let lh : ℚ := ((jsRound (size * 3/2) : ℤ) : ℚ)
  let record : OHeading := ⟨text, level, st.pages, st.y⟩
  let lines := layoutSegmentsIntoLines env [{ text := text, bold := true }] textW size
  let r := drawLinesFold pageH margin lh lines [] st
  (record, r.1, { r.2 with y := r.2.y + 4 })

theorem drawLinesFold_head (pageH margin lh : ℚ) (lines : List (List LinePart)) :
    ∀ (acc : List (ℕ × ℚ)) (st : PageState), acc ≠ [] →
    (drawLinesFold pageH margin lh lines acc st).1.head? = acc.head? := by
  induction lines with
  | nil =>
      intro acc st _
      rfl
  | cons l ls ih =>
      intro acc st hacc
      rw [drawLinesFold]
      rw [ih _ _ (by simp)]
      cases acc with
      | nil => exact absurd rfl hacc
      | cons a as => simp

/-- C8 (amended).  The `OutlineHeading` record appended by `drawHeading`
always captures the page number and cursor immediately before drawing
begins; this equals the page and cursor at which the heading's first
line is actually drawn **whenever the first line fits in the remaining
page space** (`y + lh ≤ pageH - margin`).  (When it does not fit, the
first line is drawn at the top of a freshly added page while the record
keeps the previous page and cursor — see the counterexample.) -/
theorem c8_heading_record_amended (env : MeasureEnv) (pageH margin textW : ℚ)
    (st : PageState) (text : String) (level : ℤ)
    (hfit : st.y + ((jsRound (headingSize level * 3/2) : ℤ) : ℚ) ≤ pageH - margin)
    (hne : layoutSegmentsIntoLines env [{ text := text, bold := true }] textW
      (headingSize level) ≠ []) :
    (drawHeading env pageH margin textW st text level).1 =
      ⟨text, level, st.pages, st.y⟩ ∧
    (drawHeading env pageH margin textW st text level).2.1.head? =
      some (st.pages, st.y) := by
  refine ⟨rfl, ?_⟩
  unfold drawHeading
  cases hl : layoutSegmentsIntoLines env [{ text := text, bold := true }] textW
      (headingSize level) with
  | nil => exact absurd hl hne
  | cons l ls =>
      simp only [hl]
      rw [drawLinesFold]
      have hes : ensureSpace pageH margin st
          ((jsRound (headingSize level * 3/2) : ℤ) : ℚ) = st := by
        rw [ensureSpace, if_pos hfit]
      rw [hes]
      rw [drawLinesFold_head _ _ _ ls _ _ (by simp)]
      simp

/-! ## Content image de-duplication (`popup.js`, `generatePDF` /
`seenImageUrls`)

Before the content loop, the hero image's normalized URL is added to
`seenImageUrls`; each content image item is skipped outright when its
normalized `src` is already in the set, and otherwise drawn (the
fallible decode embedded as an oracle) and recorded.  `drawnUrls` logs
the normalized URL of every `drawImage` invocation the loop makes. -/

structure ImgLoopSt where
  seen : List String
  drawnUrls : List String
  st : PageState
  deriving DecidableEq, Repr

/-- The `item.type === "image"` branch of the content loop. -/
def processContentImage (normUrl : String → String) (decode : String → Option ImgDims)
    (pageH margin textW : ℚ) (s : ImgLoopSt) (src : String) : ImgLoopSt :=
  let norm := normUrl src
  if norm ∈ s.seen then s
  else
    { seen := s.seen ++ [norm],
      drawnUrls := s.drawnUrls ++ [norm],
      st := drawImage pageH margin textW (decode src) s.st }

/-- Invariant of the image loop: the drawn list is duplicate-free, lies
inside the seen set, and never contains the hero's normalized URL,
which is always in the seen set. -/
def ImgInv (heroNorm : String) (s : ImgLoopSt) : Prop :=
  s.drawnUrls.Nodup ∧ (∀ u ∈ s.drawnUrls, u ∈ s.seen) ∧
  heroNorm ∈ s.seen ∧ heroNorm ∉ s.drawnUrls

theorem processContentImage_inv (normUrl : String → String)
    (decode : String → Option ImgDims) (pageH margin textW : ℚ)
    {heroNorm : String} {s : ImgLoopSt} (src : String)
    (h : ImgInv heroNorm s) :
    ImgInv heroNorm (processContentImage normUrl decode pageH margin textW s src) := by
  obtain ⟨hnd, hsub, hhero, hherond⟩ := h
  unfold processContentImage
  by_cases hmem : normUrl src ∈ s.seen
  · rw [if_pos hmem]
    exact ⟨hnd, hsub, hhero, hherond⟩
  · rw [if_neg hmem]
    refine ⟨?_, ?_, ?_, ?_⟩
    · rw [List.nodup_append]
      refine ⟨hnd, List.nodup_singleton _, ?_⟩
      intro u hu hu2
      have : u = normUrl src := by simpa using hu2
      subst this
      exact hmem (hsub _ hu)
    · intro u hu
      rcases List.mem_append.mp hu with hu | hu
      · exact List.mem_append.mpr (Or.inl (hsub u hu))
      · exact List.mem_append.mpr (Or.inr hu)
    · exact List.mem_append.mpr (Or.inl hhero)
    · intro hc
      rcases List.mem_append.mp hc with hc | hc
      · exact hherond hc
      · have : heroNorm = normUrl src := by simpa using hc
        exact hmem (this ▸ hhero)

theorem imgLoop_inv (normUrl : String → String) (decode : String → Option ImgDims)
    (pageH margin textW : ℚ) (heroNorm : String) (srcs : List String) :
    ∀ s : ImgLoopSt, ImgInv heroNorm s →
    ImgInv heroNorm
      (srcs.foldl (processContentImage normUrl decode pageH margin textW) s) := by
  induction srcs with
  | nil => intro s h; exact h
  | cons a l ih =>
      intro s h
      rw [List.foldl_cons]
      exact ih _ (processContentImage_inv normUrl decode pageH margin textW a h)

/-- C10.  Within one `generatePDF` call, with the hero image's
normalized URL recorded as seen before content rendering: over any
sequence of content image items, the normalized URLs for which
`drawImage` is invoked are pairwise distinct and never equal to the
hero's; an item whose normalized src is already in the seen set is
skipped with the loop state (seen set, drawn log, page/cursor state)
completely unchanged; and every drawn item's normalized URL is added to
the seen set (it is in `seen` ever after, by the loop invariant). -/
theorem c10_image_dedup (normUrl : String → String)
    (decode : String → Option ImgDims) (pageH margin textW : ℚ)
    (hero : String) (st0 : PageState) (srcs : List String) :
    (let fin := srcs.foldl (processContentImage normUrl decode pageH margin textW)
        ⟨[normUrl hero], [], st0⟩
     fin.drawnUrls.Nodup ∧ normUrl hero ∉ fin.drawnUrls ∧
       (∀ u ∈ fin.drawnUrls, u ∈ fin.seen)) ∧
    (∀ (s : ImgLoopSt) (src : String), normUrl src ∈ s.seen →
      processContentImage normUrl decode pageH margin textW s src = s) := by
  constructor
  · have h := imgLoop_inv normUrl decode pageH margin textW (normUrl hero) srcs
      ⟨[normUrl hero], [], st0⟩
      ⟨List.nodup_nil, by simp, by simp, by simp⟩
    exact ⟨h.1, h.2.2.2, h.2.1⟩
  · intro s src hmem
    unfold processContentImage
    rw [if_pos hmem]

/-- Witness for C10: the skip branch at a concrete state whose seen set
already contains the (identity-normalized) URL. -/
theorem c10_image_dedup_witness :
    ((id : String → String) "u" ∈ (⟨["u"], [], ⟨1, 56⟩⟩ : ImgLoopSt).seen) ∧
    processContentImage id (fun _ => none) 800 56 480 ⟨["u"], [], ⟨1, 56⟩⟩ "u" =
      ⟨["u"], [], ⟨1, 56⟩⟩ :=
  ⟨by decide,
   (c10_image_dedup id (fun _ => none) 800 56 480 "h" ⟨1, 56⟩ []).2
     ⟨["u"], [], ⟨1, 56⟩⟩ "u" (by decide)⟩

/-- A concrete measurement environment for witnesses: identity NFKD
(the source's fallback branch), code-point grapheme segmentation, and
zero-width oracles. -/
def zeroEnv : MeasureEnv :=
  { nfkd := id, graphemes := segmentGraphemesFallback,
    getTextWidth := fun _ _ _ => 0, canvasMeasure := fun _ _ _ => 0 }

theorem zeroEnv_layout_A (maxW size : ℚ) :
    layoutSegmentsIntoLines zeroEnv [{ text := "A", bold := true }] maxW size =
      [[⟨{ text := "A", bold := true }, 0, [⟨.text, "A", 0⟩]⟩]] := by
  have h1 : normalizeUnicodeForPDF id "A" = "A" := by decide
  have h2 : jsSplitKeepNL "A" = ["A"] := by decide
  have h3 : combineSingleCharRuns (tokenizeChunk ("A" : String).data) = [['A']] := by
    decide
  have h4 : segmentGraphemesFallback "A" = ["A"] := by decide
  have h5 : isEmojiGrapheme "A" = false := by decide
  have h6 : isAllWs (⟨['A']⟩ : String) = false := by decide
  have h7 : ("" ++ "A" : String) = "A" := rfl
  simp +decide [layoutSegmentsIntoLines, placeSeg, placeChunk, placeToken, pushLine,
    splitTokenIntoFragments, fragWalk, measureSeg, zeroEnv, h1, h2, h3, h4, h5, h6, h7]

theorem headingSize_two : headingSize 2 = 16 := by
  rw [headingSize]
  norm_num

theorem h2_line_height : ((jsRound (headingSize 2 * 3/2) : ℤ) : ℚ) = 24 := by
  rw [headingSize_two]
  have hz : jsRound ((16 : ℚ) * 3 / 2) = 24 := by
    rw [jsRound]
    apply Int.floor_eq_iff.mpr
    norm_num
  rw [hz]
  norm_num

/-- Counterexample to C8 as stated: with page height 800, margin 56 and
cursor at `y = 760` on page 1, the level-2 heading `"A"` needs a 24pt
line that does not fit (`760 + 24 > 744`), so its first line is drawn at
`(page 2, y = 56)` — but the `OutlineHeading` record, pushed before
drawing, captures `(page 1, y = 760)`. -/
theorem c8_heading_record_counterexample :
    (drawHeading zeroEnv 800 56 480 ⟨1, 760⟩ "A" 2).1 = ⟨"A", 2, 1, 760⟩ ∧
    (drawHeading zeroEnv 800 56 480 ⟨1, 760⟩ "A" 2).2.1 = [(2, 56)] ∧
    ((1 : ℕ), (760 : ℚ)) ≠ ((2 : ℕ), (56 : ℚ)) := by
  refine ⟨rfl, ?_, by norm_num⟩
  simp only [drawHeading]
  rw [zeroEnv_layout_A]
  rw [drawLinesFold]
  rw [show ensureSpace 800 56 ⟨1, 760⟩ ((jsRound (headingSize 2 * 3/2) : ℤ) : ℚ) =
      ⟨2, 56⟩ from by
    rw [ensureSpace, if_neg]
    rw [h2_line_height]
    norm_num]
  rw [drawLinesFold]
  rfl

/-- Witness for C8 (amended): at `y = 100` the 24pt first line fits, the
layout of `"A"` is nonempty, and the record coincides with the first
line's draw position `(page 1, y = 100)`. -/
theorem c8_heading_record_amended_witness :
    ((⟨1, 100⟩ : PageState).y + ((jsRound (headingSize 2 * 3/2) : ℤ) : ℚ) ≤ 800 - 56) ∧
    layoutSegmentsIntoLines zeroEnv [{ text := "A", bold := true }] 480
      (headingSize 2) ≠ [] ∧
    (drawHeading zeroEnv 800 56 480 ⟨1, 100⟩ "A" 2).1 = ⟨"A", 2, 1, 100⟩ ∧
    (drawHeading zeroEnv 800 56 480 ⟨1, 100⟩ "A" 2).2.1.head? = some (1, 100) := by
  have hfit : ((⟨1, 100⟩ : PageState) : PageState).y +
      ((jsRound (headingSize 2 * 3/2) : ℤ) : ℚ) ≤ 800 - 56 := by
    rw [h2_line_height]
    norm_num
  have hne : layoutSegmentsIntoLines zeroEnv [{ text := "A", bold := true }] 480
      (headingSize 2) ≠ [] := by
    rw [zeroEnv_layout_A]
    simp
  have h := c8_heading_record_amended zeroEnv 800 56 480 ⟨1, 100⟩ "A" 2 hfit hne
  exact ⟨hfit, hne, h.1, h.2⟩

end ArticleDoc
